import Mathlib

/-!
Verification of the study-buddy AI service core against its specification.

The Python sources are shallowly embedded: Python `str` values are modelled
as `List Char` (ASCII fragment of Unicode), Python `int` as `Nat` where the
source only ever holds non-negative values, Python `float` thresholds as exact
rationals (the source compares small decimal literals such as `1.2`, `0.5`,
`0.75`, `0.6`, `1.1`; we model those comparisons exactly, e.g.
`tokens <= target * 1.2` becomes `5 * tokens ≤ 6 * target`), and the Postgres
tables touched by a handler as association lists inside an explicit state
record.  Fallible handlers return an explicit result type.
-/

set_option maxHeartbeats 1000000
set_option linter.unusedVariables false

namespace StudyBuddy

/-- Python strings, modelled as lists of characters. -/
abbrev Str := List Char

/-- Python `\s` / `str.isspace()` for the ASCII range: space, tab, newline,
carriage return, vertical tab, form feed. -/
def pyIsSpace (c : Char) : Bool :=
  c == ' ' || c == '\t' || c == '\n' || c == '\r' || c == '\x0b' || c == '\x0c'

/-- Python `\d` restricted to ASCII digits. -/
def pyIsDigit (c : Char) : Bool := '0' ≤ c && c ≤ '9'

/-- Python `str.isprintable()` on the ASCII / Latin-1 control range: true for
code points 32–126 and for code points ≥ 160 (wider Unicode categories are out
of scope of this model); false for C0 controls, DEL, and C1 controls. -/
def pyIsPrintable (c : Char) : Bool :=
  (32 ≤ c.toNat && c.toNat ≤ 126) || 160 ≤ c.toNat

/-- Python `str.lower()` (ASCII fragment). -/
def pyLower (s : Str) : Str := s.map Char.toLower

/-- `startsWith pat s` holds when `pat` is a prefix of `s`. -/
def startsWith : Str → Str → Bool
  | [], _ => true
  | _, [] => false
  | a :: as, b :: bs => a == b && startsWith as bs

/-- Python `needle in haystack` (substring containment). -/
def pyIn (needle : Str) : Str → Bool
  | [] => needle.isEmpty
  | c :: rest => startsWith needle (c :: rest) || pyIn needle rest

/-- Python `str.strip()` from the left. -/
def stripLeft (s : Str) : Str := s.dropWhile (fun c => pyIsSpace c)

/-- Python `str.strip()`: drop whitespace from both ends. -/
def pyStrip (s : Str) : Str :=
  ((stripLeft s).reverse.dropWhile (fun c => pyIsSpace c)).reverse

/-- Python `s.replace(old, new)` for a single-character `old`. -/
def pyReplaceChar (old : Char) (new : Str) : Str → Str
  | [] => []
  | c :: rest => (if c == old then new else [c]) ++ pyReplaceChar old new rest

/-- `re.sub` of every maximal run of characters satisfying `p` by a single
space.  The boolean argument records whether the previous character of the
input belonged to such a run. -/
def subRunsToSpace (p : Char → Bool) : Bool → Str → Str
  | _, [] => []
  | prev, c :: rest =>
    if p c then (if prev then [] else [' ']) ++ subRunsToSpace p true rest
    else c :: subRunsToSpace p false rest

/-- Python `re.sub(r"\s+", " ", s)`. -/
def collapseWs (s : Str) : Str := subRunsToSpace pyIsSpace false s

/-- Worker for `pySplitOn`: scans the string keeping the (reversed) current
piece in `acc`; a piece ends as soon as the accumulated text ends with the
separator, matching Python's leftmost, non-overlapping `str.split(sep)`. -/
def splitOnAux (sep : Str) : Str → Str → List Str
  | [], acc => [acc.reverse]
  | c :: rest, acc =>
    let acc' := c :: acc
    if startsWith sep.reverse acc' then (acc'.drop sep.length).reverse :: splitOnAux sep rest []
    else splitOnAux sep rest acc'

/-- Python `s.split(sep)` for a non-empty separator `sep`. -/
def pySplitOn (s sep : Str) : List Str := splitOnAux sep s []

/-- Worker for `pySplitWs`. -/
def splitWsAux : Str → Str → List Str
  | [], acc => if acc.isEmpty then [] else [acc.reverse]
  | c :: rest, acc =>
    if pyIsSpace c then
      if acc.isEmpty then splitWsAux rest [] else acc.reverse :: splitWsAux rest []
    else splitWsAux rest (c :: acc)

/-- Python `s.split()` (no argument): split on whitespace runs, dropping
empty fields. -/
def pySplitWs (s : Str) : List Str := splitWsAux s []

/-- Python `sep.join(pieces)`. -/
def joinSep (sep : Str) : List Str → Str
  | [] => []
  | [x] => x
  | x :: y :: rest => x ++ sep ++ joinSep sep (y :: rest)

/-- First-occurrence deduplication, used to model Python `set` construction
(a Python set is modelled as the list of its members in first-insertion
order, whose length is the set's cardinality). -/
def dedupFirst (seen : List Str) : List Str → List Str
  | [] => []
  | x :: xs => if x ∈ seen then dedupFirst seen xs else x :: dedupFirst (x :: seen) xs

/-- Cardinality of the intersection of two Python sets given as deduplicated
lists. -/
def interLen (a b : List Str) : Nat := (a.filter (fun x => decide (x ∈ b))).length

/-- Cardinality of the union of two Python sets given as deduplicated lists. -/
def unionLen (a b : List Str) : Nat := (dedupFirst [] (a ++ b)).length

-- Basic lemmas on the string primitives.

theorem startsWith_iff_append (pat s : Str) :
    startsWith pat s = true ↔ ∃ t, s = pat ++ t := by
  induction pat generalizing s with
  | nil => simp [startsWith]
  | cons a as ih =>
    cases s with
    | nil => simp [startsWith]
    | cons b bs =>
      simp only [startsWith, Bool.and_eq_true, beq_iff_eq, ih, List.cons_append,
        List.cons.injEq]
      constructor
      · rintro ⟨rfl, t, rfl⟩; exact ⟨t, rfl, rfl⟩
      · rintro ⟨t, rfl, rfl⟩; exact ⟨rfl, t, rfl⟩

theorem splitOnAux_ne_nil (sep s acc : Str) : splitOnAux sep s acc ≠ [] := by
  cases s with
  | nil => simp [splitOnAux]
  | cons c rest => simp only [splitOnAux]; split <;> simp [splitOnAux_ne_nil sep rest]

theorem joinSep_cons (sep : Str) (x : Str) (l : List Str) (h : l ≠ []) :
    joinSep sep (x :: l) = x ++ sep ++ joinSep sep l := by
  cases l with
  | nil => exact absurd rfl h
  | cons y rest => rfl

theorem joinSep_append (sep : Str) (as bs : List Str) (ha : as ≠ []) (hb : bs ≠ []) :
    joinSep sep (as ++ bs) = joinSep sep as ++ sep ++ joinSep sep bs := by
  induction as with
  | nil => exact absurd rfl ha
  | cons x xs ih =>
    cases xs with
    | nil =>
      cases bs with
      | nil => exact absurd rfl hb
      | cons b bs' => simp [joinSep]
    | cons y ys =>
      have h1 : (y :: ys) ++ bs ≠ [] := by simp
      have h2 : (y :: ys : List Str) ≠ [] := by simp
      calc joinSep sep ((x :: y :: ys) ++ bs)
          = x ++ sep ++ joinSep sep ((y :: ys) ++ bs) := by
            rw [List.cons_append, joinSep_cons sep x _ h1]
        _ = x ++ sep ++ (joinSep sep (y :: ys) ++ sep ++ joinSep sep bs) := by
            rw [ih h2]
        _ = joinSep sep (x :: y :: ys) ++ sep ++ joinSep sep bs := by
            rw [joinSep_cons sep x _ h2]; simp [List.append_assoc]

theorem joinSep_splitOnAux (sep : Str) (s acc : Str) :
    joinSep sep (splitOnAux sep s acc) = acc.reverse ++ s := by
  induction s generalizing acc with
  | nil => simp [splitOnAux, joinSep]
  | cons c rest ih =>
    simp only [splitOnAux]
    split
    · rename_i hpre
      rw [joinSep_cons sep _ _ (splitOnAux_ne_nil sep rest []), ih []]
      have hdecomp : ∃ t, (c :: acc) = sep.reverse ++ t :=
        (startsWith_iff_append sep.reverse (c :: acc)).mp hpre
      obtain ⟨t, ht⟩ := hdecomp
      have hlen : sep.reverse.length = sep.length := by simp
      have hdrop : (c :: acc).drop sep.length = t := by
        rw [ht, ← hlen, List.drop_left]
      have hrev : ((c :: acc).drop sep.length).reverse ++ sep = (c :: acc).reverse := by
        rw [hdrop, ht, List.reverse_append, List.reverse_reverse]
      calc ((c :: acc).drop sep.length).reverse ++ sep ++ rest
          = (c :: acc).reverse ++ rest := by rw [List.append_assoc, ← hrev]; simp
        _ = acc.reverse ++ (c :: rest) := by simp
    · rw [ih (c :: acc)]; simp

/-- Joining the fields of `pySplitOn` with the separator restores the input,
as in Python. -/
theorem joinSep_pySplitOn (s sep : Str) : joinSep sep (pySplitOn s sep) = s := by
  simpa using joinSep_splitOnAux sep s []

/-!
## Document chunker (`app/services/document_processor/chunker.py`)
-/

/-- A semantic chunk of text, as produced by the chunker
(`Chunk` pydantic model in `chunker.py`). -/
structure Chunk where
  chunk_text : Str
  section_hierarchy : Str
  page_start : Nat
  page_end : Nat
  chunk_index : Nat
  token_count : Nat
deriving DecidableEq

/-- `estimate_tokens`: rough token estimate, `len(text) // 4`. -/
def estimate_tokens (text : Str) : Nat := text.length / 4

/-- The paragraph separator `"\n\n"` used by the splitter. -/
def nl2 : Str := ['\n', '\n']

/-- The paragraph-packing loop of `split_into_chunks`: greedily packs
paragraphs into the current chunk (`cur`, with running token sum `curTokens`),
flushing the current chunk whenever adding the next paragraph would exceed
`targetSize` and the current chunk is non-empty.  A trailing non-empty chunk
is flushed at the end. -/
def packChunks (sectionHierarchy : Str) (pageStart pageEnd targetSize : Nat) :
    List Str → List Str → Nat → Nat → List Chunk
  | [], cur, curTokens, idx =>
    if cur.isEmpty then []
    else [⟨joinSep nl2 cur, sectionHierarchy, pageStart, pageEnd, idx, curTokens⟩]
  | para :: rest, cur, curTokens, idx =>
    let paraTokens := estimate_tokens para
    if curTokens + paraTokens > targetSize && !cur.isEmpty then
      ⟨joinSep nl2 cur, sectionHierarchy, pageStart, pageEnd, idx, curTokens⟩ ::
        packChunks sectionHierarchy pageStart pageEnd targetSize rest [para] paraTokens (idx + 1)
    else
      packChunks sectionHierarchy pageStart pageEnd targetSize rest (cur ++ [para])
        (curTokens + paraTokens) idx

/-- `split_into_chunks(text, section_hierarchy, page_start, page_end,
start_index, target_size)`.  The float guard `token_count <= target_size * 1.2`
of the source is modelled exactly as `5 * token_count ≤ 6 * target_size`
(the decimal literal `1.2` is the rational `6/5`). -/
def split_into_chunks (text sectionHierarchy : Str)
    (pageStart pageEnd startIndex targetSize : Nat) : List Chunk :=
  let tokenCount := estimate_tokens text
  if 5 * tokenCount ≤ 6 * targetSize then
    [⟨text, sectionHierarchy, pageStart, pageEnd, startIndex, tokenCount⟩]
  else
    packChunks sectionHierarchy pageStart pageEnd targetSize (pySplitOn text nl2) [] 0 startIndex

theorem packChunks_ne_nil (sh : Str) (ps pe target : Nat) (paras : List Str)
    (cur : List Str) (curTok idx : Nat) (hcur : cur ≠ []) :
    packChunks sh ps pe target paras cur curTok idx ≠ [] := by
  induction paras generalizing cur curTok idx with
  | nil => simp [packChunks, List.isEmpty_iff, hcur]
  | cons para rest ih =>
    simp only [packChunks]
    split
    · simp
    · exact ih (cur ++ [para]) _ _ (by simp)

theorem packChunks_token_bound (sh : Str) (ps pe target : Nat) (paras : List Str)
    (cur : List Str) (curTok idx : Nat)
    (hp : ∀ p ∈ paras, 5 * estimate_tokens p ≤ 6 * target)
    (hz : cur = [] → curTok = 0) (hb : 5 * curTok ≤ 6 * target) :
    ∀ c ∈ packChunks sh ps pe target paras cur curTok idx, 5 * c.token_count ≤ 6 * target := by
  induction paras generalizing cur curTok idx with
  | nil =>
    intro c hc
    simp only [packChunks] at hc
    split at hc
    · simp at hc
    · simp only [List.mem_singleton] at hc; subst hc; exact hb
  | cons para rest ih =>
    intro c hc
    have hpara : 5 * estimate_tokens para ≤ 6 * target := hp para (by simp)
    have hrest : ∀ p ∈ rest, 5 * estimate_tokens p ≤ 6 * target := by
      intro p hmem; exact hp p (by simp [hmem])
    simp only [packChunks] at hc
    split at hc
    · rename_i hcond
      rcases List.mem_cons.mp hc with hc1 | hc2
      · subst hc1; exact hb
      · exact ih [para] (estimate_tokens para) (idx + 1) hrest (by simp) hpara c hc2
    · rename_i hcond
      refine ih (cur ++ [para]) (curTok + estimate_tokens para) idx hrest (by simp) ?_ c hc
      by_cases hce : cur = []
      · have := hz hce
        omega
      · have hle : ¬(curTok + estimate_tokens para > target) := by
          intro hgt
          exact hcond (by simp [hgt, List.isEmpty_iff, hce])
        omega

theorem packChunks_join (sh : Str) (ps pe target : Nat) (paras : List Str)
    (cur : List Str) (curTok idx : Nat) :
    joinSep nl2 ((packChunks sh ps pe target paras cur curTok idx).map (·.chunk_text)) =
      if cur = [] then joinSep nl2 paras else joinSep nl2 (cur ++ paras) := by
  induction paras generalizing cur curTok idx with
  | nil =>
    simp only [packChunks]
    by_cases hcur : cur = []
    · simp [hcur, joinSep]
    · simp [List.isEmpty_iff, hcur, joinSep]
  | cons para rest ih =>
    simp only [packChunks]
    split
    · rename_i hcond
      have hcur : cur ≠ [] := by
        have h := hcond
        simp only [Bool.and_eq_true, Bool.not_eq_eq_eq_not, Bool.not_true,
          List.isEmpty_eq_false] at h
        exact h.2
      have hne : packChunks sh ps pe target rest [para] (estimate_tokens para) (idx + 1) ≠ [] :=
        packChunks_ne_nil sh ps pe target rest [para] _ _ (by simp)
      rw [List.map_cons,
        joinSep_cons nl2 _ _ (by simpa using hne), ih [para] (estimate_tokens para) (idx + 1)]
      simp only [if_neg (by simp : ([para] : List Str) ≠ []), if_neg hcur]
      rw [joinSep_append nl2 cur (para :: rest) hcur (by simp)]
      simp
    · rename_i hcond
      rw [ih (cur ++ [para]) (curTok + estimate_tokens para) idx]
      by_cases hcur : cur = []
      · simp [hcur]
      · simp only [if_neg (by simp : cur ++ [para] ≠ []), if_neg hcur, List.append_assoc,
          List.singleton_append]

/-- A section text consisting of one oversized paragraph (40 characters)
followed by a small one, used to refute the unconditional chunk-size bound. -/
def oversizedSectionText : Str := List.replicate 40 'a' ++ nl2 ++ List.replicate 4 'b'

/-- C2, counterexample: with `target_size = 1`, the section text
`oversizedSectionText` does not fit in a single chunk (so the
paragraph-packing branch runs), yet the packing branch emits a chunk whose
`token_count` exceeds `target × 1.2` (modelled as `5·tokens ≤ 6·target`),
because a single paragraph larger than the target is never split. -/
theorem chunk_size_bound_counterexample :
    ¬ (5 * estimate_tokens oversizedSectionText ≤ 6 * 1) ∧
      ∃ c ∈ split_into_chunks oversizedSectionText [] 0 0 0 1,
        ¬ (5 * c.token_count ≤ 6 * 1) := by
  decide

/-- C2 (amended): every chunk produced by `split_into_chunks` satisfies
`token_count ≤ target × 1.2` (modelled exactly as `5·token_count ≤
6·target`) *provided every blank-line-separated paragraph of the text
satisfies that same bound on its own*; an oversized single paragraph is
never split and escapes the bound (see the counterexample). -/
theorem chunk_size_bound_amended (text sectionHierarchy : Str)
    (pageStart pageEnd startIndex targetSize : Nat)
    (hpar : ∀ p ∈ pySplitOn text nl2, 5 * estimate_tokens p ≤ 6 * targetSize) :
    ∀ c ∈ split_into_chunks text sectionHierarchy pageStart pageEnd startIndex targetSize,
      5 * c.token_count ≤ 6 * targetSize := by
  intro c hc
  simp only [split_into_chunks] at hc
  split at hc
  · rename_i hfit
    simp only [List.mem_singleton] at hc
    subst hc
    exact hfit
  · exact packChunks_token_bound sectionHierarchy pageStart pageEnd targetSize
      (pySplitOn text nl2) [] 0 startIndex hpar (fun _ => rfl) (by simp) c hc

/-- Witness for the amended C2 theorem at a concrete input: a two-paragraph
text whose paragraphs each fit the bound for `target_size = 1`. -/
theorem chunk_size_bound_amended_witness :
    (∀ p ∈ pySplitOn ("aaaa\n\nbbbb".toList) nl2, 5 * estimate_tokens p ≤ 6 * 1) ∧
      ∀ c ∈ split_into_chunks ("aaaa\n\nbbbb".toList) [] 0 0 0 1,
        5 * c.token_count ≤ 6 * 1 :=
  ⟨by decide, chunk_size_bound_amended ("aaaa\n\nbbbb".toList) [] 0 0 0 1 (by decide)⟩

/-- C9: the splitter loses no text — joining the `chunk_text` fields of the
chunks returned by `split_into_chunks`, in output order, with the separator
`"\n\n"` yields exactly the original input text, both in the single-chunk
case and in the paragraph-packing case. -/
theorem splitter_join_roundtrip (text sectionHierarchy : Str)
    (pageStart pageEnd startIndex targetSize : Nat) :
    joinSep nl2
      ((split_into_chunks text sectionHierarchy pageStart pageEnd startIndex targetSize).map
        (·.chunk_text)) = text := by
  simp only [split_into_chunks]
  split
  · simp [joinSep]
  · rw [packChunks_join]
    simp only [if_pos rfl]
    exact joinSep_pySplitOn text nl2

/-!
## Heading detection (`detect_heading` in `chunker.py`)

PyMuPDF layout blocks are embedded as records; font sizes (Python floats
holding small decimal values) are modelled as exact rationals.
-/

/-- A PyMuPDF text span: font size, text, and font name. -/
structure PySpan where
  size : ℚ
  text : Str
  font : Str

/-- A PyMuPDF line: a list of spans. -/
structure PyLine where
  spans : List PySpan

/-- A PyMuPDF block: a type tag (`0` for text blocks) and a list of lines. -/
structure PyBlock where
  btype : Nat
  lines : List PyLine

/-- Head-of-string digit test (`re.match` starts at the beginning). -/
def headIsDigit : Str → Bool
  | c :: _ => pyIsDigit c
  | [] => false

/-- Head-of-string whitespace test. -/
def headIsSpace : Str → Bool
  | c :: _ => pyIsSpace c
  | [] => false

/-- The maximal leading run of ASCII digits and dots of a string. -/
def leadingNumeric (t : Str) : Str := t.takeWhile (fun c => pyIsDigit c || c == '.')

/-- `true` when the string has no two adjacent dots. -/
def noDoubleDot : Str → Bool
  | [] => true
  | [_] => true
  | a :: b :: rest => !(a == '.' && b == '.') && noDoubleDot (b :: rest)

/-- Decision procedure for `re.match(r'^(\d+\.?)+\s+', text)`: the maximal
leading digit/dot run is non-empty, starts with a digit, contains no two
adjacent dots, and is immediately followed by a whitespace character.
(`matchesNumbered_iff` below proves this equal to the regex language.) -/
def matchesNumbered (t : Str) : Bool :=
  let p := leadingNumeric t
  !p.isEmpty && headIsDigit p && noDoubleDot p && headIsSpace (t.drop p.length)

/-- One alternative of `re.match(r'^(Chapter|Section|Part)\s+\d+', text,
re.IGNORECASE)`: the lowercased text starts with the (lowercase) word `w`,
followed by at least one whitespace character, followed by a digit. -/
def chapterWordCheck (t w : Str) : Bool :=
  startsWith w (pyLower t) &&
    (let rest := t.drop w.length
     let sp := rest.takeWhile (fun c => pyIsSpace c)
     !sp.isEmpty && headIsDigit (rest.drop sp.length))

/-- Decision procedure for `re.match(r'^(Chapter|Section|Part)\s+\d+', text,
re.IGNORECASE)`.  (`matchesChapter_iff` below proves it equal to the regex
language.) -/
def matchesChapter (t : Str) : Bool :=
  chapterWordCheck t ("chapter".toList) || chapterWordCheck t ("section".toList) ||
    chapterWordCheck t ("part".toList)

/-- Python `text[0].isupper()` guarded by non-emptiness. -/
def headIsUpper : Str → Bool
  | c :: _ => c.isUpper
  | [] => false

/-- `detect_heading(block, page_height)`: classify a layout block as a
heading.  Returns `(heading_level, text)` or `none`.  `page_height` is unused
by the source as well. -/
def detect_heading (block : PyBlock) (page_height : ℚ) : Option (Nat × Str) :=
  if block.btype ≠ 0 then none
  else
    match block.lines with
    | [] => none
    | first_line :: _ =>
      match first_line.spans with
      | [] => none
      | first_span :: _ =>
        let font_size := first_span.size
        let text := pyStrip first_span.text
        if text.length < 3 then none
        else
          let is_bold := pyIn ("bold".toList) (pyLower first_span.font)
          let is_large := font_size > 12
          let is_title_case := headIsUpper text
          let has_numbering := matchesNumbered text || matchesChapter text
          if has_numbering then
            let dots := ((pySplitWs text).headD []).count '.'
            some (min (dots + 1) 3, text)
          else if is_bold && is_large && is_title_case then
            if font_size > 16 then some (1, text)
            else if font_size > 14 then some (2, text)
            else some (3, text)
          else none

/-- A group matched by `(\d+\.?)+`: a non-empty digit run with an optional
trailing dot. -/
def isNumGroup (g : Str) : Prop :=
  ∃ ds : Str, ds ≠ [] ∧ (∀ c ∈ ds, pyIsDigit c = true) ∧ (g = ds ∨ g = ds ++ ['.'])

/-- The language of `re.match(r'^(\d+\.?)+\s+', t)`: `t` starts with a
non-empty sequence of `(\d+\.?)` groups followed by a whitespace character. -/
def regexNumberedMatch (t : Str) : Prop :=
  ∃ (gs : List Str) (sp : Char) (rest : Str),
    gs ≠ [] ∧ (∀ g ∈ gs, isNumGroup g) ∧ pyIsSpace sp = true ∧
      t = gs.flatten ++ sp :: rest

/-- The language of `re.match(r'^(Chapter|Section|Part)\s+\d+', t,
re.IGNORECASE)`: `t` starts with one of the three words (case-insensitively),
then one or more whitespace characters, then a digit. -/
def regexChapterMatch (t : Str) : Prop :=
  ∃ (w : Str) (sp : Char) (ws : Str) (d : Char) (rest : Str),
    (pyLower w = "chapter".toList ∨ pyLower w = "section".toList ∨
      pyLower w = "part".toList) ∧
    pyIsSpace sp = true ∧ (∀ c ∈ ws, pyIsSpace c = true) ∧ pyIsDigit d = true ∧
    t = w ++ sp :: (ws ++ d :: rest)

-- Character-class facts used by the regex equivalences.

theorem space_not_numeric {c : Char} (h : pyIsSpace c = true) :
    (pyIsDigit c || c == '.') = false := by
  simp only [pyIsSpace, Bool.or_eq_true, beq_iff_eq] at h
  rcases h with ((((rfl | rfl) | rfl) | rfl) | rfl) | rfl <;> decide

theorem digit_not_space {c : Char} (h : pyIsDigit c = true) : pyIsSpace c = false := by
  by_contra hs
  have hsp : pyIsSpace c = true := by
    cases hx : pyIsSpace c
    · exact absurd hx hs
    · rfl
  have := space_not_numeric hsp
  simp [h] at this

theorem digit_ne_dot {c : Char} (h : pyIsDigit c = true) : c ≠ '.' := by
  rintro rfl
  exact absurd h (by decide)

theorem takeWhile_append_all {p : Char → Bool} (l r : Str) (hl : ∀ c ∈ l, p c = true) :
    (l ++ r).takeWhile p = l ++ r.takeWhile p := by
  induction l with
  | nil => simp
  | cons a t ih =>
    have ha : p a = true := hl a (by simp)
    simp only [List.cons_append, List.takeWhile_cons, ha, if_true]
    rw [ih (fun c hc => hl c (by simp [hc]))]

theorem drop_length_takeWhile {p : Char → Bool} (l : Str) :
    l.drop (l.takeWhile p).length = l.dropWhile p := by
  have h := List.takeWhile_append_dropWhile (p := p) (l := l)
  calc l.drop (l.takeWhile p).length
      = (l.takeWhile p ++ l.dropWhile p).drop (l.takeWhile p).length := by rw [h]
    _ = l.dropWhile p := List.drop_left _ _

theorem dropWhile_head_false {p : Char → Bool} {l : Str} {c : Char} {t : Str}
    (h : l.dropWhile p = c :: t) : p c = false := by
  induction l with
  | nil => simp at h
  | cons a l' ih =>
    rw [List.dropWhile_cons] at h
    split at h
    · exact ih h
    · rename_i hpa
      cases h1 : p a
      · injection h with h2 h3
        subst h2
        exact h1
      · exact absurd h1 hpa

/-- The dot-adjacency relation used to reason about `(\d+\.?)+`. -/
def NoTwoDots (a b : Char) : Prop := ¬(a = '.' ∧ b = '.')

theorem noDoubleDot_iff (s : Str) : noDoubleDot s = true ↔ s.Chain' NoTwoDots := by
  induction s with
  | nil => simp [noDoubleDot]
  | cons a t ih =>
    cases t with
    | nil => simp [noDoubleDot]
    | cons b t' =>
      rw [noDoubleDot, List.chain'_cons, ← ih]
      simp [NoTwoDots, and_comm, Bool.and_eq_true, not_and]
      tauto

theorem chain'_of_no_dot (l : Str) (h : ∀ c ∈ l, c ≠ '.') : l.Chain' NoTwoDots := by
  induction l with
  | nil => exact List.chain'_nil
  | cons a t ih =>
    cases t with
    | nil => exact List.chain'_singleton a
    | cons b t' =>
      rw [List.chain'_cons]
      exact ⟨fun hab => (h a (by simp)) hab.1,
        ih (fun c hc => h c (by simp [List.mem_cons] at hc ⊢; tauto))⟩

theorem isNumGroup_ne_nil {g : Str} (h : isNumGroup g) : g ≠ [] := by
  obtain ⟨ds, hne, -, rfl | rfl⟩ := h <;> simp [hne]

theorem isNumGroup_chars {g : Str} (h : isNumGroup g) :
    ∀ c ∈ g, (pyIsDigit c || c == '.') = true := by
  obtain ⟨ds, hne, hds, rfl | rfl⟩ := h <;> intro c hc
  · simp [hds c hc]
  · rcases List.mem_append.mp hc with hc1 | hc2
    · simp [hds c hc1]
    · simp only [List.mem_singleton] at hc2
      subst hc2
      rfl

theorem isNumGroup_head {g : Str} (h : isNumGroup g) : headIsDigit g = true := by
  obtain ⟨ds, hne, hds, hcase⟩ := h
  cases ds with
  | nil => exact absurd rfl hne
  | cons d ds' =>
    have hd : pyIsDigit d = true := hds d (by simp)
    rcases hcase with rfl | rfl <;> simp [headIsDigit, hd]

theorem isNumGroup_chain {g : Str} (h : isNumGroup g) : g.Chain' NoTwoDots := by
  obtain ⟨ds, hne, hds, hg | hg⟩ := h
  · rw [hg]
    exact chain'_of_no_dot ds (fun c hc => digit_ne_dot (hds c hc))
  · rw [hg, List.chain'_append]
    refine ⟨chain'_of_no_dot ds (fun c hc => digit_ne_dot (hds c hc)),
      List.chain'_singleton '.', ?_⟩
    intro x hx y hy
    have hxmem : x ∈ ds := List.mem_of_mem_getLast? hx
    exact fun hxy => (digit_ne_dot (hds x hxmem)) hxy.1

theorem headIsDigit_head? {l : Str} (h : headIsDigit l = true) :
    ∀ y ∈ l.head?, pyIsDigit y = true := by
  cases l with
  | nil => simp [headIsDigit] at h
  | cons c t => intro y hy; simp only [List.head?_cons, Option.mem_def, Option.some.injEq] at hy; subst hy; exact h

theorem flatten_head {gs : List Str} (hne : gs ≠ []) (hg : ∀ g ∈ gs, isNumGroup g) :
    headIsDigit gs.flatten = true := by
  cases gs with
  | nil => exact absurd rfl hne
  | cons g gs' =>
    have h1 := hg g (by simp)
    obtain ⟨ds, hdne, hds, hcase⟩ := h1
    cases ds with
    | nil => exact absurd rfl hdne
    | cons d ds' =>
      have hd : pyIsDigit d = true := hds d (by simp)
      rcases hcase with hg1 | hg1 <;> simp [hg1, headIsDigit, hd]

theorem flatten_ne_nil {gs : List Str} (hne : gs ≠ []) (hg : ∀ g ∈ gs, isNumGroup g) :
    gs.flatten ≠ [] := by
  cases gs with
  | nil => exact absurd rfl hne
  | cons g gs' =>
    have := isNumGroup_ne_nil (hg g (by simp))
    simp only [List.flatten_cons]
    intro hcontra
    exact this (List.append_eq_nil.mp hcontra).1

theorem flatten_chars {gs : List Str} (hg : ∀ g ∈ gs, isNumGroup g) :
    ∀ c ∈ gs.flatten, (pyIsDigit c || c == '.') = true := by
  intro c hc
  obtain ⟨g, hgmem, hcg⟩ := List.mem_flatten.mp hc
  exact isNumGroup_chars (hg g hgmem) c hcg

theorem flatten_chain {gs : List Str} (hg : ∀ g ∈ gs, isNumGroup g) :
    gs.flatten.Chain' NoTwoDots := by
  induction gs with
  | nil => exact List.chain'_nil
  | cons g gs' ih =>
    simp only [List.flatten_cons]
    rw [List.chain'_append]
    refine ⟨isNumGroup_chain (hg g (by simp)),
      ih (fun g' hg' => hg g' (by simp [hg'])), ?_⟩
    intro x hx y hy
    by_cases hgs' : gs' = []
    · subst hgs'; simp at hy
    · have hhd : headIsDigit gs'.flatten = true :=
        flatten_head hgs' (fun g' hg' => hg g' (by simp [hg']))
      have hyd : pyIsDigit y = true := headIsDigit_head? hhd y hy
      exact fun hxy => (digit_ne_dot hyd) hxy.2

/-- Every non-empty digit/dot string that starts with a digit and has no two
adjacent dots decomposes into `(\d+\.?)` groups. -/
theorem exists_groups : ∀ (n : Nat) (p : Str), p.length ≤ n →
    (∀ c ∈ p, (pyIsDigit c || c == '.') = true) → headIsDigit p = true →
    p.Chain' NoTwoDots →
    ∃ gs : List Str, gs ≠ [] ∧ (∀ g ∈ gs, isNumGroup g) ∧ gs.flatten = p := by
  intro n
  induction n with
  | zero =>
    intro p hlen hchars hhead hchain
    have : p = [] := List.length_eq_zero.mp (Nat.le_zero.mp hlen)
    subst this
    simp [headIsDigit] at hhead
  | succ n ih =>
    intro p hlen hchars hhead hchain
    have hsplit : p.takeWhile pyIsDigit ++ p.dropWhile pyIsDigit = p :=
      List.takeWhile_append_dropWhile _ _
    set ds := p.takeWhile pyIsDigit with hds_def
    set r := p.dropWhile pyIsDigit with hr_def
    have hdsdig : ∀ c ∈ ds, pyIsDigit c = true := fun c hc => List.mem_takeWhile_imp hc
    have hdsne : ds ≠ [] := by
      cases hp : p with
      | nil => rw [hp] at hhead; simp [headIsDigit] at hhead
      | cons c t =>
        rw [hp] at hhead
        have hc : pyIsDigit c = true := hhead
        rw [hds_def, hp, List.takeWhile_cons, if_pos hc]
        simp
    cases hr : r with
    | nil =>
      refine ⟨[ds], by simp, ?_, ?_⟩
      · intro g hg
        simp only [List.mem_singleton] at hg
        subst hg
        exact ⟨ds, hdsne, hdsdig, Or.inl rfl⟩
      · rw [← hsplit, hr]
        simp
    | cons c r' =>
      have hcnotdig : pyIsDigit c = false := dropWhile_head_false (hr_def ▸ hr)
      have hrsub : r <:+ p := hr_def ▸ List.dropWhile_suffix pyIsDigit
      have hcmem : c ∈ p := hrsub.subset (by rw [hr]; simp)
      have hcdot : c = '.' := by
        have := hchars c hcmem
        rw [hcnotdig] at this
        simpa using this
      have hchainr : r.Chain' NoTwoDots := hchain.suffix hrsub
      cases hr' : r' with
      | nil =>
        refine ⟨[ds ++ ['.']], by simp, ?_, ?_⟩
        · intro g hg
          simp only [List.mem_singleton] at hg
          subst hg
          exact ⟨ds, hdsne, hdsdig, Or.inr rfl⟩
        · rw [← hsplit, hr, hr', hcdot]
          simp
      | cons c2 r'' =>
        rw [hr, hr'] at hchainr
        have hrel : NoTwoDots c c2 := (List.chain'_cons.mp hchainr).1
        have hc2nd : c2 ≠ '.' := fun h2 => hrel ⟨hcdot, h2⟩
        have hc2mem : c2 ∈ p := hrsub.subset (by rw [hr, hr']; simp)
        have hc2dig : pyIsDigit c2 = true := by
          have := hchars c2 hc2mem
          rcases Bool.or_eq_true_iff.mp this with h1 | h1
          · exact h1
          · exact absurd (by simpa using h1) hc2nd
        have hplen : p.length = ds.length + 2 + r''.length := by
          rw [← hsplit, hr, hr']
          simp
          omega
        have hdslen : 1 ≤ ds.length := by
          cases hd : ds with
          | nil => exact absurd hd hdsne
          | cons a b => simp
        have hlen2 : (c2 :: r'').length ≤ n := by
          simp only [List.length_cons]
          omega
        have hchars2 : ∀ x ∈ c2 :: r'', (pyIsDigit x || x == '.') = true := by
          intro x hx
          exact hchars x (hrsub.subset (by rw [hr, hr']; simp [List.mem_cons] at hx ⊢; tauto))
        have hhead2 : headIsDigit (c2 :: r'') = true := hc2dig
        have hchain2 : (c2 :: r'').Chain' NoTwoDots := hchainr.tail
        obtain ⟨gs', hgs'ne, hgs'grp, hflat⟩ := ih (c2 :: r'') hlen2 hchars2 hhead2 hchain2
        refine ⟨(ds ++ ['.']) :: gs', by simp, ?_, ?_⟩
        · intro g hg
          rcases List.mem_cons.mp hg with hg1 | hg1
          · subst hg1
            exact ⟨ds, hdsne, hdsdig, Or.inr rfl⟩
          · exact hgs'grp g hg1
        · rw [List.flatten_cons, hflat, ← hsplit, hr, hr', hcdot]
          simp

/-- `matchesNumbered` decides exactly the language of
`re.match(r'^(\d+\.?)+\s+', ·)`. -/
theorem matchesNumbered_iff (t : Str) :
    matchesNumbered t = true ↔ regexNumberedMatch t := by
  constructor
  · intro h
    simp only [matchesNumbered, Bool.and_eq_true, Bool.not_eq_eq_eq_not, Bool.not_true,
      List.isEmpty_eq_false] at h
    obtain ⟨⟨⟨hne, hhead⟩, hnd⟩, hsp⟩ := h
    have hchars : ∀ c ∈ leadingNumeric t, (pyIsDigit c || c == '.') = true := by
      intro c hc
      unfold leadingNumeric at hc
      have h2 := List.mem_takeWhile_imp hc
      simpa using h2
    have hchain : (leadingNumeric t).Chain' NoTwoDots := (noDoubleDot_iff _).mp hnd
    obtain ⟨gs, hgsne, hgsgrp, hflat⟩ :=
      exists_groups (leadingNumeric t).length (leadingNumeric t) le_rfl hchars hhead hchain
    have hdrop : t.drop (leadingNumeric t).length = t.dropWhile (fun c => pyIsDigit c || c == '.') :=
      drop_length_takeWhile t
    rw [hdrop] at hsp
    cases hrest : t.dropWhile (fun c => pyIsDigit c || c == '.') with
    | nil => rw [hrest] at hsp; simp [headIsSpace] at hsp
    | cons sp rest =>
      rw [hrest] at hsp
      refine ⟨gs, sp, rest, hgsne, hgsgrp, hsp, ?_⟩
      rw [hflat, ← hrest]
      exact (List.takeWhile_append_dropWhile _ _).symm
  · rintro ⟨gs, sp, rest, hgsne, hgsgrp, hsp, rfl⟩
    have hchars := flatten_chars hgsgrp
    have hlead : leadingNumeric (gs.flatten ++ sp :: rest) = gs.flatten := by
      rw [leadingNumeric, takeWhile_append_all _ _ hchars, List.takeWhile_cons,
        if_neg (by rw [space_not_numeric hsp]; simp)]
      simp
    simp only [matchesNumbered, hlead, Bool.and_eq_true, Bool.not_eq_eq_eq_not, Bool.not_true,
      List.isEmpty_eq_false]
    refine ⟨⟨⟨flatten_ne_nil hgsne hgsgrp, flatten_head hgsne hgsgrp⟩,
      (noDoubleDot_iff _).mpr (flatten_chain hgsgrp)⟩, ?_⟩
    rw [List.drop_left]
    exact hsp

theorem chapterWordCheck_iff (t w : Str) :
    chapterWordCheck t w = true ↔
      ∃ (w' : Str) (sp : Char) (ws : Str) (d : Char) (rest : Str),
        pyLower w' = w ∧ pyIsSpace sp = true ∧ (∀ c ∈ ws, pyIsSpace c = true) ∧
          pyIsDigit d = true ∧ t = w' ++ sp :: (ws ++ d :: rest) := by
  constructor
  · intro h
    simp only [chapterWordCheck, Bool.and_eq_true, Bool.not_eq_eq_eq_not, Bool.not_true,
      List.isEmpty_eq_false] at h
    obtain ⟨hstarts, hspne, hdig⟩ := h
    obtain ⟨u, hu⟩ := (startsWith_iff_append w (pyLower t)).mp hstarts
    have htw : pyLower (t.take w.length) = w := by
      calc pyLower (t.take w.length) = (pyLower t).take w.length := by
            rw [pyLower, pyLower, List.map_take]
        _ = (w ++ u).take w.length := by rw [hu]
        _ = w := List.take_left _ _
    have hsprunws : ∀ c ∈ (t.drop w.length).takeWhile (fun c => pyIsSpace c),
        pyIsSpace c = true := by
      intro c hc
      have := List.mem_takeWhile_imp hc
      simpa using this
    have hrsplit : (t.drop w.length).takeWhile (fun c => pyIsSpace c) ++
        (t.drop w.length).dropWhile (fun c => pyIsSpace c) = t.drop w.length :=
      List.takeWhile_append_dropWhile _ _
    have hdrop2 : (t.drop w.length).drop
        ((t.drop w.length).takeWhile (fun c => pyIsSpace c)).length =
        (t.drop w.length).dropWhile (fun c => pyIsSpace c) :=
      drop_length_takeWhile (t.drop w.length)
    rw [hdrop2] at hdig
    cases hsp : (t.drop w.length).takeWhile (fun c => pyIsSpace c) with
    | nil => rw [hsp] at hspne; simp at hspne
    | cons sp ws =>
      cases hrd : (t.drop w.length).dropWhile (fun c => pyIsSpace c) with
      | nil => rw [hrd] at hdig; simp [headIsDigit] at hdig
      | cons d rest =>
        rw [hrd] at hdig
        refine ⟨t.take w.length, sp, ws, d, rest, htw, ?_, ?_, hdig, ?_⟩
        · exact hsprunws sp (by rw [hsp]; simp)
        · intro c hc
          exact hsprunws c (by rw [hsp]; simp [hc])
        · have hr0 : t.drop w.length = sp :: (ws ++ d :: rest) := by
            rw [← hrsplit, hsp, hrd]
            simp
          rw [← hr0]
          exact (List.take_append_drop _ t).symm
  · rintro ⟨w', sp, ws, d, rest, hw', hsp, hws, hd, rfl⟩
    have hwlen : w'.length = w.length := by
      rw [← hw', pyLower, List.length_map]
    simp only [chapterWordCheck, Bool.and_eq_true, Bool.not_eq_eq_eq_not, Bool.not_true,
      List.isEmpty_eq_false]
    refine ⟨?_, ?_⟩
    · apply (startsWith_iff_append _ _).mpr
      refine ⟨pyLower (sp :: (ws ++ d :: rest)), ?_⟩
      rw [pyLower, List.map_append, ← pyLower, ← pyLower, hw']
    · rw [← hwlen, List.drop_left]
      have htake : (sp :: (ws ++ d :: rest)).takeWhile (fun c => pyIsSpace c) = sp :: ws := by
        have : sp :: (ws ++ d :: rest) = (sp :: ws) ++ d :: rest := by simp
        rw [this, takeWhile_append_all (sp :: ws) (d :: rest)
          (by intro c hc; rcases List.mem_cons.mp hc with rfl | hc2; exact hsp; exact hws c hc2),
          List.takeWhile_cons, if_neg (by rw [digit_not_space hd]; simp)]
        simp
      rw [htake]
      constructor
      · simp
      · have hlen : (sp :: ws).length = (sp :: ws).length := rfl
        have : sp :: (ws ++ d :: rest) = (sp :: ws) ++ d :: rest := by simp
        rw [this, List.drop_left]
        exact hd

/-- `matchesChapter` decides exactly the language of
`re.match(r'^(Chapter|Section|Part)\s+\d+', ·, re.IGNORECASE)`. -/
theorem matchesChapter_iff (t : Str) :
    matchesChapter t = true ↔ regexChapterMatch t := by
  simp only [matchesChapter, Bool.or_eq_true, chapterWordCheck_iff, regexChapterMatch]
  constructor
  · rintro ((⟨w', sp, ws, d, rest, hw', h⟩ | ⟨w', sp, ws, d, rest, hw', h⟩) |
      ⟨w', sp, ws, d, rest, hw', h⟩)
    · exact ⟨w', sp, ws, d, rest, Or.inl hw', h.1, h.2.1, h.2.2.1, h.2.2.2⟩
    · exact ⟨w', sp, ws, d, rest, Or.inr (Or.inl hw'), h.1, h.2.1, h.2.2.1, h.2.2.2⟩
    · exact ⟨w', sp, ws, d, rest, Or.inr (Or.inr hw'), h.1, h.2.1, h.2.2.1, h.2.2.2⟩
  · rintro ⟨w', sp, ws, d, rest, hw' | hw' | hw', hsp, hws, hd, heq⟩
    · exact Or.inl (Or.inl ⟨w', sp, ws, d, rest, hw', hsp, hws, hd, heq⟩)
    · exact Or.inl (Or.inr ⟨w', sp, ws, d, rest, hw', hsp, hws, hd, heq⟩)
    · exact Or.inr ⟨w', sp, ws, d, rest, hw', hsp, hws, hd, heq⟩

/-- Modelled from the spec's words (claim C7): a group of the spec's written
pattern `(\d+\.)+` — a non-empty digit run followed by a *mandatory* dot. -/
def specDottedGroup (g : Str) : Prop :=
  ∃ ds : Str, ds ≠ [] ∧ (∀ c ∈ ds, pyIsDigit c = true) ∧ g = ds ++ ['.']

/-- Modelled from the spec's words (claim C7): the language of the spec's
written pattern `^(\d+\.)+\s`. -/
def specNumberedMatch (t : Str) : Prop :=
  ∃ (gs : List Str) (sp : Char) (rest : Str),
    gs ≠ [] ∧ (∀ g ∈ gs, specDottedGroup g) ∧ pyIsSpace sp = true ∧
      t = gs.flatten ++ sp :: rest

/-- Modelled from the spec's words (claim C7): the language of the spec's
written pattern `^(Chapter|Section|Part)\s+\d+` (case-sensitive, as written —
no IGNORECASE flag appears in the spec). -/
def specChapterMatch (t : Str) : Prop :=
  ∃ (w : Str) (sp : Char) (ws : Str) (d : Char) (rest : Str),
    (w = "Chapter".toList ∨ w = "Section".toList ∨ w = "Part".toList) ∧
    pyIsSpace sp = true ∧ (∀ c ∈ ws, pyIsSpace c = true) ∧ pyIsDigit d = true ∧
    t = w ++ sp :: (ws ++ d :: rest)

theorem specNumbered_implies_regex (t : Str) (h : specNumberedMatch t) :
    regexNumberedMatch t := by
  obtain ⟨gs, sp, rest, hgsne, hgrp, hsp, heq⟩ := h
  refine ⟨gs, sp, rest, hgsne, ?_, hsp, heq⟩
  intro g hg
  obtain ⟨ds, h1, h2, h3⟩ := hgrp g hg
  exact ⟨ds, h1, h2, Or.inr h3⟩

theorem specChapter_implies_regex (t : Str) (h : specChapterMatch t) :
    regexChapterMatch t := by
  obtain ⟨w, sp, ws, d, rest, hw, hsp, hws, hd, heq⟩ := h
  refine ⟨w, sp, ws, d, rest, ?_, hsp, hws, hd, heq⟩
  rcases hw with rfl | rfl | rfl
  · exact Or.inl (by decide)
  · exact Or.inr (Or.inl (by decide))
  · exact Or.inr (Or.inr (by decide))

/-- A text block whose leading span text is `"12 ab"` — matched by the code's
pattern `^(\d+\.?)+\s+` (no dot needed) but by neither pattern written in the
spec. -/
def blockNum12 : PyBlock := ⟨0, [⟨[⟨10, "12 ab".toList, "helv".toList⟩]⟩]⟩

/-- A text block whose leading span text is `"chapter 5 x"` — matched by the
code's case-insensitive chapter pattern but by neither pattern written in the
spec. -/
def blockChapterLower : PyBlock := ⟨0, [⟨[⟨10, "chapter 5 x".toList, "helv".toList⟩]⟩]⟩

theorem leadingNumeric_flatten_of_decomp {t : Str} {gs : List Str} {sp : Char} {rest : Str}
    (hgrp : ∀ g ∈ gs, isNumGroup g) (hsp : pyIsSpace sp = true)
    (heq : t = gs.flatten ++ sp :: rest) :
    leadingNumeric t = gs.flatten := by
  rw [heq, leadingNumeric, takeWhile_append_all _ _ (flatten_chars hgrp),
    List.takeWhile_cons, if_neg (by rw [space_not_numeric hsp]; simp)]
  simp

/-- C7, counterexample: the block with leading text `"12 ab"` is classified a
numbered heading of level 1 by `detect_heading`, yet `"12 ab"` matches neither
`^(\d+\.)+\s` (the dot is mandatory in the spec's pattern) nor
`^(Chapter|Section|Part)\s+\d+`; likewise the block with leading text
`"chapter 5 x"` is classified a numbered heading although the lowercase word
matches neither spec pattern (the spec's pattern is case-sensitive as
written).  So "classified a numbered heading exactly when the leading text
matches `^(\d+\.)+\s` or `^(Chapter|Section|Part)\s+\d+`" is false. -/
theorem heading_pattern_counterexample :
    detect_heading blockNum12 792 = some (1, "12 ab".toList) ∧
    ¬ specNumberedMatch ("12 ab".toList) ∧ ¬ specChapterMatch ("12 ab".toList) ∧
    detect_heading blockChapterLower 792 = some (1, "chapter 5 x".toList) ∧
    ¬ specNumberedMatch ("chapter 5 x".toList) ∧
    ¬ specChapterMatch ("chapter 5 x".toList) := by
  refine ⟨by decide, ?_, ?_, by decide, ?_, ?_⟩
  · rintro ⟨gs, sp, rest, hgsne, hgrp, hsp, heq⟩
    have hgrp' : ∀ g ∈ gs, isNumGroup g := by
      intro g hg
      obtain ⟨ds, h1, h2, h3⟩ := hgrp g hg
      exact ⟨ds, h1, h2, Or.inr h3⟩
    have hlead := leadingNumeric_flatten_of_decomp hgrp' hsp heq
    cases gs with
    | nil => exact hgsne rfl
    | cons g gs' =>
      obtain ⟨ds, hdne, hdds, hgeq⟩ := hgrp g (by simp)
      have hdotg : '.' ∈ g := by rw [hgeq]; simp
      have hdot : '.' ∈ (g :: gs').flatten := List.mem_flatten.mpr ⟨g, by simp, hdotg⟩
      rw [← hlead] at hdot
      have : leadingNumeric ("12 ab".toList) = ['1', '2'] := by decide
      rw [this] at hdot
      simp at hdot
  · intro h
    have h2 := (matchesChapter_iff ("12 ab".toList)).mpr (specChapter_implies_regex _ h)
    exact absurd h2 (by decide)
  · intro h
    have h2 := (matchesNumbered_iff ("chapter 5 x".toList)).mpr (specNumbered_implies_regex _ h)
    exact absurd h2 (by decide)
  · rintro ⟨w, sp, ws, d, rest, hw, hsp, hws, hd, heq⟩
    rcases hw with rfl | rfl | rfl <;> simp at heq

theorem detect_heading_unfold (block : PyBlock) (page_height : ℚ)
    (line : PyLine) (span : PySpan) (rls : List PyLine) (rss : List PySpan)
    (hb : block.btype = 0) (hl : block.lines = line :: rls) (hs : line.spans = span :: rss) :
    detect_heading block page_height =
      (if (pyStrip span.text).length < 3 then none
       else if matchesNumbered (pyStrip span.text) || matchesChapter (pyStrip span.text) then
         some (min (((pySplitWs (pyStrip span.text)).headD []).count '.' + 1) 3,
           pyStrip span.text)
       else if pyIn ("bold".toList) (pyLower span.font) && decide (span.size > 12) &&
           headIsUpper (pyStrip span.text) then
         (if span.size > 16 then some (1, pyStrip span.text)
          else if span.size > 14 then some (2, pyStrip span.text)
          else some (3, pyStrip span.text))
       else none) := by
  simp only [detect_heading, hb, hl, hs, ne_eq, not_true_eq_false]
  simp

/-- C7 (amended): for every well-formed text block, writing `t` for the
stripped leading span text: text shorter than 3 characters is never a
heading; the block is classified a numbered heading — with level
dot-count + 1 capped at 3, the dots counted in the first
whitespace-delimited token of `t` — exactly when `t` matches the code's
actual patterns `^(\d+\.?)+\s+` (the dot after a digit run is *optional*,
unlike the spec's `^(\d+\.)+\s`) or `^(Chapter|Section|Part)\s+\d+`
*case-insensitively*; when neither pattern matches, the only possible
headings come from the bold/font-size branch. -/
theorem detect_heading_numbered_amended (block : PyBlock) (page_height : ℚ)
    (line : PyLine) (span : PySpan) (rls : List PyLine) (rss : List PySpan)
    (hb : block.btype = 0) (hl : block.lines = line :: rls) (hs : line.spans = span :: rss) :
    ((pyStrip span.text).length < 3 → detect_heading block page_height = none)
    ∧ (3 ≤ (pyStrip span.text).length →
        ((regexNumberedMatch (pyStrip span.text) ∨ regexChapterMatch (pyStrip span.text)) →
          detect_heading block page_height =
            some (min (((pySplitWs (pyStrip span.text)).headD []).count '.' + 1) 3,
              pyStrip span.text))
        ∧ (¬(regexNumberedMatch (pyStrip span.text) ∨ regexChapterMatch (pyStrip span.text)) →
          detect_heading block page_height = none ∨
            (pyIn ("bold".toList) (pyLower span.font) = true ∧ span.size > 12 ∧
              detect_heading block page_height =
                some ((if span.size > 16 then 1 else if span.size > 14 then 2 else 3),
                  pyStrip span.text)))) := by
  have hu := detect_heading_unfold block page_height line span rls rss hb hl hs
  constructor
  · intro hshort
    rw [hu, if_pos hshort]
  · intro hlong
    have hnotshort : ¬ (pyStrip span.text).length < 3 := by omega
    constructor
    · intro hmatch
      have hnum : (matchesNumbered (pyStrip span.text) ||
          matchesChapter (pyStrip span.text)) = true := by
        rcases hmatch with h | h
        · simp [(matchesNumbered_iff _).mpr h]
        · simp [(matchesChapter_iff _).mpr h]
      rw [hu, if_neg hnotshort, if_pos hnum]
    · intro hnomatch
      have hnum : (matchesNumbered (pyStrip span.text) ||
          matchesChapter (pyStrip span.text)) = false := by
        cases h1 : matchesNumbered (pyStrip span.text)
        · cases h2 : matchesChapter (pyStrip span.text)
          · rfl
          · exact absurd (Or.inr ((matchesChapter_iff _).mp h2)) hnomatch
        · exact absurd (Or.inl ((matchesNumbered_iff _).mp h1)) hnomatch
      rw [hu, if_neg hnotshort, if_neg (by simp [hnum])]
      cases hbold : (pyIn ("bold".toList) (pyLower span.font) && decide (span.size > 12) &&
          headIsUpper (pyStrip span.text))
      · left
        rw [if_neg (by simp [hbold])]
      · right
        have h1 := hbold
        simp only [Bool.and_eq_true] at h1
        obtain ⟨⟨hA, hB⟩, hC⟩ := h1
        refine ⟨hA, of_decide_eq_true hB, ?_⟩
        rw [if_pos rfl]
        by_cases h16 : span.size > 16
        · simp [h16]
        · by_cases h14 : span.size > 14 <;> simp [h16, h14]

/-- Witness for the amended C7 theorem at the concrete block `blockNum12`. -/
theorem detect_heading_numbered_amended_witness :
    ((pyStrip ("12 ab".toList)).length < 3 → detect_heading blockNum12 792 = none)
    ∧ (3 ≤ (pyStrip ("12 ab".toList)).length →
        ((regexNumberedMatch (pyStrip ("12 ab".toList)) ∨
            regexChapterMatch (pyStrip ("12 ab".toList))) →
          detect_heading blockNum12 792 =
            some (min (((pySplitWs (pyStrip ("12 ab".toList))).headD []).count '.' + 1) 3,
              pyStrip ("12 ab".toList)))
        ∧ (¬(regexNumberedMatch (pyStrip ("12 ab".toList)) ∨
            regexChapterMatch (pyStrip ("12 ab".toList))) →
          detect_heading blockNum12 792 = none ∨
            (pyIn ("bold".toList) (pyLower ("helv".toList)) = true ∧ (10 : ℚ) > 12 ∧
              detect_heading blockNum12 792 =
                some ((if (10 : ℚ) > 16 then 1 else if (10 : ℚ) > 14 then 2 else 3),
                  pyStrip ("12 ab".toList))))) :=
  detect_heading_numbered_amended blockNum12 792 ⟨[⟨10, "12 ab".toList, "helv".toList⟩]⟩
    ⟨10, "12 ab".toList, "helv".toList⟩ [] [] rfl rfl rfl

/-!
## Topic extraction post-processing (`app/services/topic_extractor.py`)

Float threshold comparisons of the source (`>= 0.5`, `>= 0.75`, `>= 0.6`)
are modelled exactly by cross-multiplied natural-number comparisons.
-/

/-- An extracted topic (`ExtractedTopic` pydantic model). -/
structure ExtractedTopic where
  name : Str
  description : Str
  keywords : List Str
deriving DecidableEq

/-- True for the characters kept by `_normalize_topic_name`
(the complement of the pattern `[^a-z0-9]`). -/
def isLowerAlphaNum (c : Char) : Bool := ('a' ≤ c && c ≤ 'z') || pyIsDigit c

/-- `_normalize_topic_name`: lowercase, collapse runs of non-alphanumeric
characters to single spaces, strip. -/
def _normalize_topic_name (name : Str) : Str :=
  pyStrip (subRunsToSpace (fun c => !isLowerAlphaNum c) false (pyLower name))

/-- `_tokenize_topic_name`: the set of tokens of the normalized name that are
longer than 2 characters (a Python set, modelled as a deduplicated list). -/
def _tokenize_topic_name (name : Str) : List Str :=
  dedupFirst [] ((pySplitOn (_normalize_topic_name name) [' ']).filter (fun t => 2 < t.length))

/-- The keyword set `{keyword.strip().lower() for keyword in keywords if
keyword.strip()}`. -/
def keywordSet (keywords : List Str) : List Str :=
  dedupFirst [] (((keywords.map pyStrip).filter (fun k => !k.isEmpty)).map pyLower)

/-- `_topics_are_similar`.  The source's float comparisons
`jaccard >= 0.5`, `overlap >= 0.75` and `keyword_overlap >= 0.6` (where each
ratio is `intersection / max(denominator, 1)`) are modelled exactly by the
cross-multiplied integer comparisons `2·I ≥ max(U,1)`, `4·I ≥ 3·max(m,1)` and
`5·I ≥ 3·max(m,1)`. -/
def _topics_are_similar (left right : ExtractedTopic) : Bool :=
  let left_name := _normalize_topic_name left.name
  let right_name := _normalize_topic_name right.name
  if left_name.isEmpty || right_name.isEmpty then false
  else if left_name == right_name then true
  else if pyIn left_name right_name || pyIn right_name left_name then true
  else
    let left_tokens := _tokenize_topic_name left.name
    let right_tokens := _tokenize_topic_name right.name
    if left_tokens.isEmpty || right_tokens.isEmpty then false
    else
      let inter := interLen left_tokens right_tokens
      let uni := unionLen left_tokens right_tokens
      let jaccardOk := decide (max uni 1 ≤ 2 * inter)
      let overlapOk := decide (3 * max (min left_tokens.length right_tokens.length) 1 ≤ 4 * inter)
      let left_keywords := keywordSet left.keywords
      let right_keywords := keywordSet right.keywords
      let kwOverlapOk := !left_keywords.isEmpty && !right_keywords.isEmpty &&
        decide (3 * max (min left_keywords.length right_keywords.length) 1 ≤
          5 * interLen left_keywords right_keywords)
      jaccardOk || overlapOk || kwOverlapOk

/-- The keyword-cleaning loop of `_sanitize_topic`: collapse/strip each
keyword, drop empties, and drop case-insensitive duplicates (`seen` holds the
lowercased keywords already kept). -/
def sanitizeTopicKeywords (seen : List Str) : List Str → List Str
  | [] => []
  | kw :: rest =>
    let ck := pyStrip (collapseWs kw)
    if ck.isEmpty then sanitizeTopicKeywords seen rest
    else if pyLower ck ∈ seen then sanitizeTopicKeywords seen rest
    else ck :: sanitizeTopicKeywords (pyLower ck :: seen) rest

/-- The keyword part of `_sanitize_topic`: clean the keywords, default them
to the lowercased name when none survive, cap at 8. -/
def sanitizedKeywords (name : Str) (kws : List Str) : List Str :=
  let keywords0 := sanitizeTopicKeywords [] kws
  let keywords1 := if keywords0.isEmpty then [pyLower name] else keywords0
  if 8 < keywords1.length then keywords1.take 8 else keywords1

/-- `_sanitize_topic`: collapse/strip the name (dropping topics whose name is
shorter than 3 characters), default an empty description, clean the keywords
(see `sanitizedKeywords`). -/
def _sanitize_topic (topic : ExtractedTopic) : Option ExtractedTopic :=
  let name := pyStrip (collapseWs topic.name)
  if name.length < 3 then none
  else
    let description0 := pyStrip (collapseWs topic.description)
    let description :=
      if description0.isEmpty then
        ("Core concepts and reasoning for ".toList ++ name ++ ['.'])
      else description0
    some ⟨name, description, sanitizedKeywords name topic.keywords⟩

/-- The keyword-union loop of `_merge_topics`: keep first occurrences
case-insensitively (`seen` holds lowercased keywords already kept). -/
def mergeKeywordsDedup (seen : List Str) : List Str → List Str
  | [] => []
  | kw :: rest =>
    if pyLower kw ∈ seen then mergeKeywordsDedup seen rest
    else kw :: mergeKeywordsDedup (pyLower kw :: seen) rest

/-- `_merge_topics`: prefer the shorter name when its normalization is a
substring of the other's normalization; keep the longer description; union
keywords case-insensitively, capped at 8. -/
def _merge_topics (existing candidate : ExtractedTopic) : ExtractedTopic :=
  let chosen_name :=
    if candidate.name.length < existing.name.length &&
        pyIn (_normalize_topic_name candidate.name) (_normalize_topic_name existing.name) then
      candidate.name
    else existing.name
  let chosen_description :=
    if existing.description.length < candidate.description.length then candidate.description
    else existing.description
  let combined_keywords := mergeKeywordsDedup [] (existing.keywords ++ candidate.keywords)
  ⟨chosen_name, chosen_description, combined_keywords.take 8⟩

/-- `_topic_targets`: target topic-count band by material count. -/
def _topic_targets (material_count : Nat) : Nat × Nat × Nat :=
  if material_count ≤ 1 then (3, 4, 4)
  else if material_count ≤ 3 then (3, 5, 5)
  else if material_count ≤ 6 then (4, 6, 6)
  else (6, 8, 8)

/-- One step of the dedup pass: scan the accepted topics in order and merge
the new topic into the first similar one (returning `none` when no accepted
topic is similar). -/
def mergeIntoFirst : List ExtractedTopic → ExtractedTopic → Option (List ExtractedTopic)
  | [], _ => none
  | e :: es, t =>
    if _topics_are_similar e t then some (_merge_topics e t :: es)
    else (mergeIntoFirst es t).map (fun l => e :: l)

/-- The dedup pass of `_postprocess_topics`. -/
def dedupPass (ts : List ExtractedTopic) : List ExtractedTopic :=
  ts.foldl (fun acc t =>
    match mergeIntoFirst acc t with
    | some acc2 => acc2
    | none => acc ++ [t]) []

/-- `_postprocess_topics`: sanitize, deduplicate/merge, cap at the band
maximum for the material count. -/
def _postprocess_topics (topics : List ExtractedTopic) (material_count : Nat) :
    List ExtractedTopic :=
  let sanitized := topics.filterMap _sanitize_topic
  let deduped := dedupPass sanitized
  deduped.take (_topic_targets material_count).2.2

/-- The topic named "Memory Leaks" of claim C4, with keywords shared with
`topicMemoryLeakErrors` (keyword-overlap ratio 1 ≥ 0.6, so the two topics are
similar). -/
def topicMemoryLeaks : ExtractedTopic :=
  ⟨"Memory Leaks".toList,
    "Common memory leak failure modes in long-running services.".toList,
    ["memory".toList, "heap".toList]⟩

/-- The topic named "Memory Leak Errors" of claim C4. -/
def topicMemoryLeakErrors : ExtractedTopic :=
  ⟨"Memory Leak Errors".toList, "Leak errors.".toList,
    ["memory".toList, "heap".toList]⟩

/-- C4, counterexample: the two topics are similar (via keyword overlap) and
merge, but when "Memory Leak Errors" is accepted first by the dedup pass, the
merged topic keeps the name "Memory Leak Errors" — because "memory leaks" is
*not* a substring of "memory leak errors" (trailing `s`), the shorter-name
rule does not fire.  The claim's "regardless of which of the two the dedup
pass accepts first" is therefore false. -/
theorem topic_merge_counterexample :
    _topics_are_similar topicMemoryLeakErrors topicMemoryLeaks = true ∧
    (_postprocess_topics [topicMemoryLeakErrors, topicMemoryLeaks] 1).map (fun t => t.name) =
      ["Memory Leak Errors".toList] ∧
    ("Memory Leak Errors".toList ≠ "Memory Leaks".toList) := by
  decide

/-- C4 (amended): "Memory Leaks" and "Memory Leak Errors" (overlapping
keyword sets) merge into a single topic that keeps the longer description and
the case-insensitive keyword union capped at 8; the merged name is "Memory
Leaks" when that topic is accepted first, but "Memory Leak Errors" when the
longer name is accepted first, because the shorter name is kept only when it
is a normalized substring of the longer one and "memory leaks" is not a
substring of "memory leak errors". -/
theorem topic_merge_amended :
    ((_postprocess_topics [topicMemoryLeaks, topicMemoryLeakErrors] 1).map (fun t => t.name) =
      ["Memory Leaks".toList]) ∧
    ((_postprocess_topics [topicMemoryLeakErrors, topicMemoryLeaks] 1).map (fun t => t.name) =
      ["Memory Leak Errors".toList]) ∧
    (pyIn (_normalize_topic_name topicMemoryLeaks.name)
      (_normalize_topic_name topicMemoryLeakErrors.name) = false) ∧
    ((_postprocess_topics [topicMemoryLeaks, topicMemoryLeakErrors] 1).map
        (fun t => t.description) = [topicMemoryLeaks.description]) ∧
    ((_postprocess_topics [topicMemoryLeakErrors, topicMemoryLeaks] 1).map
        (fun t => t.description) = [topicMemoryLeaks.description]) ∧
    ((_postprocess_topics [topicMemoryLeaks, topicMemoryLeakErrors] 1).map
        (fun t => t.keywords) = [["memory".toList, "heap".toList]]) ∧
    ((_postprocess_topics [topicMemoryLeakErrors, topicMemoryLeaks] 1).map
        (fun t => t.keywords) = [["memory".toList, "heap".toList]]) := by
  decide

-- Whitespace-collapse idempotence, used for the sanitization invariant.

/-- The no-adjacent-whitespace relation on characters. -/
def NoWsPair (a b : Char) : Prop := ¬(pyIsSpace a = true ∧ pyIsSpace b = true)

theorem subRuns_space_chars (b : Bool) (s : Str) :
    ∀ c ∈ subRunsToSpace pyIsSpace b s, pyIsSpace c = true → c = ' ' := by
  induction s generalizing b with
  | nil => simp [subRunsToSpace]
  | cons c0 rest ih =>
    intro c hc hws
    simp only [subRunsToSpace] at hc
    split at hc
    · rcases List.mem_append.mp hc with h1 | h2
      · split at h1
        · simp at h1
        · simp only [List.mem_singleton] at h1; exact h1
      · exact ih true c h2 hws
    · rcases List.mem_cons.mp hc with h1 | h2
      · subst h1
        rename_i hc0
        rw [hws] at hc0
        simp at hc0
      · exact ih false c h2 hws

theorem subRuns_true_head (s : Str) :
    ∀ c, (subRunsToSpace pyIsSpace true s).head? = some c → pyIsSpace c = false := by
  induction s with
  | nil => intro c h; simp [subRunsToSpace] at h
  | cons c0 rest ih =>
    intro c h
    simp only [subRunsToSpace] at h
    split at h
    · simpa using ih c (by simpa using h)
    · rename_i hc0
      simp only [List.head?_cons, Option.some.injEq] at h
      subst h
      simpa using hc0

theorem subRuns_chain (b : Bool) (s : Str) :
    (subRunsToSpace pyIsSpace b s).Chain' NoWsPair := by
  induction s generalizing b with
  | nil => simp [subRunsToSpace]
  | cons c0 rest ih =>
    simp only [subRunsToSpace]
    split
    · split
      · simpa using ih true
      · rw [List.singleton_append, List.chain'_cons']
        refine ⟨?_, ih true⟩
        intro y hy
        have := subRuns_true_head rest y hy
        exact fun hpair => by rw [this] at hpair; exact absurd hpair.2 (by simp)
    · rw [List.chain'_cons']
      refine ⟨?_, ih false⟩
      rename_i hc0
      intro y hy
      exact fun hpair => by rw [hpair.1] at hc0; simp at hc0

theorem subRuns_id_of (s : Str)
    (hchars : ∀ c ∈ s, pyIsSpace c = true → c = ' ')
    (hchain : s.Chain' NoWsPair) :
    subRunsToSpace pyIsSpace false s = s ∧
      (headIsSpace s = false → subRunsToSpace pyIsSpace true s = s) := by
  induction s with
  | nil => simp [subRunsToSpace]
  | cons c0 rest ih =>
    have hrest := ih (fun c hc => hchars c (by simp [hc])) hchain.tail
    cases hws : pyIsSpace c0 with
    | true =>
      have hc0 : c0 = ' ' := hchars c0 (by simp) hws
      have hresthead : headIsSpace rest = false := by
        cases hr : rest with
        | nil => rfl
        | cons c1 rest' =>
          have hrel : NoWsPair c0 c1 := by
            rw [hr] at hchain
            exact (List.chain'_cons.mp hchain).1
          cases h1 : pyIsSpace c1 with
          | true => exact absurd ⟨hws, h1⟩ hrel
          | false => simpa [headIsSpace]
      constructor
      · simp only [subRunsToSpace, hws, if_true, if_false, Bool.false_eq_true]
        rw [hrest.2 hresthead, hc0]
        simp
      · intro hhead
        rw [headIsSpace] at hhead
        rw [hws] at hhead
        simp at hhead
    | false =>
      have hmain : subRunsToSpace pyIsSpace false (c0 :: rest) = c0 :: rest := by
        simp only [subRunsToSpace]
        rw [if_neg (by simp [hws])]
        rw [hrest.1]
      refine ⟨hmain, fun _ => ?_⟩
      simp only [subRunsToSpace]
      rw [if_neg (by simp [hws])]
      rw [hrest.1]

theorem pyStrip_prefix_stripLeft (s : Str) : pyStrip s <+: stripLeft s := by
  have h2 : (stripLeft s).reverse.dropWhile (fun c => pyIsSpace c) <:+ (stripLeft s).reverse :=
    List.dropWhile_suffix _
  have h3 := List.reverse_prefix.mpr h2
  rw [List.reverse_reverse] at h3
  exact h3

theorem pyStrip_within (s : Str) : pyStrip s <:+: s :=
  (pyStrip_prefix_stripLeft s).isInfix.trans (List.dropWhile_suffix _).isInfix

theorem pyStrip_head_not_space (s : Str) : headIsSpace (pyStrip s) = false := by
  cases hps : pyStrip s with
  | nil => rfl
  | cons c t =>
    obtain ⟨r, hr⟩ := pyStrip_prefix_stripLeft s
    rw [hps] at hr
    have hd : stripLeft s = c :: (t ++ r) := by rw [← hr]; simp
    have := dropWhile_head_false (p := fun c => pyIsSpace c) (l := s) hd
    simpa [headIsSpace] using this

theorem pyStrip_last_not_space (s : Str) : headIsSpace (pyStrip s).reverse = false := by
  have h : (pyStrip s).reverse = (stripLeft s).reverse.dropWhile (fun c => pyIsSpace c) := by
    rw [pyStrip, List.reverse_reverse]
  rw [h]
  cases hd : (stripLeft s).reverse.dropWhile (fun c => pyIsSpace c) with
  | nil => rfl
  | cons c t =>
    have := dropWhile_head_false (p := fun c => pyIsSpace c) hd
    simpa [headIsSpace] using this

theorem strip_id_of (s : Str) (hh : headIsSpace s = false)
    (hl : headIsSpace s.reverse = false) : pyStrip s = s := by
  have h1 : stripLeft s = s := by
    cases s with
    | nil => rfl
    | cons c t =>
      rw [stripLeft, List.dropWhile_cons, if_neg (by simp [headIsSpace] at hh; simp [hh])]
  rw [pyStrip, h1]
  have h2 : s.reverse.dropWhile (fun c => pyIsSpace c) = s.reverse := by
    cases hr : s.reverse with
    | nil => simp
    | cons c t =>
      rw [hr] at hl
      rw [List.dropWhile_cons, if_neg (by simp [headIsSpace] at hl; simp [hl])]
  rw [h2, List.reverse_reverse]

/-- `pyStrip ∘ collapseWs` is idempotent. -/
theorem collapse_strip_idem (s : Str) :
    pyStrip (collapseWs (pyStrip (collapseWs s))) = pyStrip (collapseWs s) := by
  have hchars : ∀ c ∈ pyStrip (collapseWs s), pyIsSpace c = true → c = ' ' := by
    intro c hc
    exact subRuns_space_chars false s c ((pyStrip_within (collapseWs s)).subset hc)
  have hchain : (pyStrip (collapseWs s)).Chain' NoWsPair :=
    List.Chain'.infix (subRuns_chain false s) (pyStrip_within (collapseWs s))
  have hcoll : collapseWs (pyStrip (collapseWs s)) = pyStrip (collapseWs s) :=
    (subRuns_id_of _ hchars hchain).1
  rw [hcoll]
  exact strip_id_of _ (pyStrip_head_not_space _) (pyStrip_last_not_space _)

/-- The sanitization invariant maintained by `_postprocess_topics`: the name
is at least 3 characters and already whitespace-collapsed, the description is
non-empty, and the keyword list holds 1–8 entries that are pairwise distinct
case-insensitively. -/
def GoodTopic (t : ExtractedTopic) : Prop :=
  3 ≤ t.name.length ∧ pyStrip (collapseWs t.name) = t.name ∧
    t.description ≠ [] ∧ 1 ≤ t.keywords.length ∧ t.keywords.length ≤ 8 ∧
    (t.keywords.map pyLower).Nodup

theorem sanitizeTopicKeywords_spec (l : List Str) : ∀ seen : List Str,
    ((sanitizeTopicKeywords seen l).map pyLower).Nodup ∧
      ∀ x ∈ sanitizeTopicKeywords seen l, pyLower x ∉ seen := by
  induction l with
  | nil => intro seen; simp [sanitizeTopicKeywords]
  | cons kw rest ih =>
    intro seen
    simp only [sanitizeTopicKeywords]
    split
    · exact ih seen
    · split
      · exact ih seen
      · rename_i hempty hseen
        obtain ⟨hnd, hmem⟩ := ih (pyLower (pyStrip (collapseWs kw)) :: seen)
        refine ⟨?_, ?_⟩
        · rw [List.map_cons, List.nodup_cons]
          refine ⟨?_, hnd⟩
          intro hcontra
          obtain ⟨x, hx, hxeq⟩ := List.mem_map.mp hcontra
          exact (hmem x hx) (by rw [hxeq]; simp)
        · intro x hx
          rcases List.mem_cons.mp hx with rfl | hx2
          · exact hseen
          · intro hmem2
            exact (hmem x hx2) (by simp [hmem2])

theorem mergeKeywordsDedup_spec (l : List Str) : ∀ seen : List Str,
    ((mergeKeywordsDedup seen l).map pyLower).Nodup ∧
      ∀ x ∈ mergeKeywordsDedup seen l, pyLower x ∉ seen := by
  induction l with
  | nil => intro seen; simp [mergeKeywordsDedup]
  | cons kw rest ih =>
    intro seen
    simp only [mergeKeywordsDedup]
    split
    · exact ih seen
    · rename_i hseen
      obtain ⟨hnd, hmem⟩ := ih (pyLower kw :: seen)
      refine ⟨?_, ?_⟩
      · rw [List.map_cons, List.nodup_cons]
        refine ⟨?_, hnd⟩
        intro hcontra
        obtain ⟨x, hx, hxeq⟩ := List.mem_map.mp hcontra
        exact (hmem x hx) (by rw [hxeq]; simp)
      · intro x hx
        rcases List.mem_cons.mp hx with rfl | hx2
        · exact hseen
        · intro hmem2
          exact (hmem x hx2) (by simp [hmem2])

theorem sanitizedKeywords_good (name : Str) (kws : List Str) :
    1 ≤ (sanitizedKeywords name kws).length ∧ (sanitizedKeywords name kws).length ≤ 8 ∧
      ((sanitizedKeywords name kws).map pyLower).Nodup := by
  simp only [sanitizedKeywords]
  cases h0 : (sanitizeTopicKeywords [] kws).isEmpty with
  | true =>
    simp
  | false =>
    have hne : sanitizeTopicKeywords [] kws ≠ [] := by
      simpa [List.isEmpty_eq_false] using h0
    have hpos : 1 ≤ (sanitizeTopicKeywords [] kws).length := by
      cases hk : sanitizeTopicKeywords [] kws with
      | nil => exact absurd hk hne
      | cons a b => simp
    simp only [Bool.false_eq_true, if_false]
    by_cases h8 : 8 < (sanitizeTopicKeywords [] kws).length
    · rw [if_pos h8]
      refine ⟨?_, ?_, ?_⟩
      · rw [List.length_take]
        omega
      · rw [List.length_take]
        omega
      · rw [List.map_take]
        exact ((sanitizeTopicKeywords_spec kws []).1).sublist
          (List.take_sublist _ _)
    · rw [if_neg h8]
      exact ⟨hpos, by omega, (sanitizeTopicKeywords_spec kws []).1⟩

theorem sanitize_topic_good {t t' : ExtractedTopic} (h : _sanitize_topic t = some t') :
    GoodTopic t' := by
  simp only [_sanitize_topic] at h
  split at h
  · exact absurd h (by simp)
  · rename_i hlen
    injection h with h
    subst h
    obtain ⟨hk1, hk8, hknd⟩ := sanitizedKeywords_good (pyStrip (collapseWs t.name)) t.keywords
    refine ⟨?_, collapse_strip_idem t.name, ?_, hk1, hk8, hknd⟩
    · show 3 ≤ (pyStrip (collapseWs t.name)).length
      omega
    · show (if (pyStrip (collapseWs t.description)).isEmpty = true then
          ("Core concepts and reasoning for ".toList ++ pyStrip (collapseWs t.name) ++ ['.'])
        else pyStrip (collapseWs t.description)) ≠ []
      split
      · simp
      · rename_i hdesc
        simpa [List.isEmpty_eq_false] using hdesc

theorem merge_topics_name (a b : ExtractedTopic) :
    (_merge_topics a b).name = a.name ∨ (_merge_topics a b).name = b.name := by
  simp only [_merge_topics]
  split
  · exact Or.inr rfl
  · exact Or.inl rfl

theorem merge_topics_description (a b : ExtractedTopic) :
    (_merge_topics a b).description = a.description ∨
      (_merge_topics a b).description = b.description := by
  simp only [_merge_topics]
  split
  · exact Or.inr rfl
  · exact Or.inl rfl

theorem merge_topics_keywords (a b : ExtractedTopic) :
    (_merge_topics a b).keywords = (mergeKeywordsDedup [] (a.keywords ++ b.keywords)).take 8 :=
  rfl

theorem merge_topics_good {a b : ExtractedTopic} (ha : GoodTopic a) (hb : GoodTopic b) :
    GoodTopic (_merge_topics a b) := by
  obtain ⟨han, haf, had, hak1, hak8, hand⟩ := ha
  obtain ⟨hbn, hbf, hbd, hbk1, hbk8, hbnd⟩ := hb
  refine ⟨?_, ?_, ?_, ?_, ?_, ?_⟩
  · rcases merge_topics_name a b with h | h <;> rw [h]
    · exact han
    · exact hbn
  · rcases merge_topics_name a b with h | h <;> rw [h]
    · exact haf
    · exact hbf
  · rcases merge_topics_description a b with h | h <;> rw [h]
    · exact had
    · exact hbd
  · rw [merge_topics_keywords]
    cases hk : a.keywords with
    | nil => rw [hk] at hak1; simp at hak1
    | cons k ks =>
      have hexp : mergeKeywordsDedup [] ((k :: ks) ++ b.keywords) =
          k :: mergeKeywordsDedup [pyLower k] (ks ++ b.keywords) := by
        simp [mergeKeywordsDedup]
      rw [hexp]
      simp
  · rw [merge_topics_keywords, List.length_take]
    omega
  · rw [merge_topics_keywords, List.map_take]
    exact ((mergeKeywordsDedup_spec (a.keywords ++ b.keywords) []).1).sublist
      (List.take_sublist _ _)

theorem mergeIntoFirst_good {acc : List ExtractedTopic} {t : ExtractedTopic}
    {acc' : List ExtractedTopic} (hacc : ∀ x ∈ acc, GoodTopic x) (ht : GoodTopic t)
    (h : mergeIntoFirst acc t = some acc') : ∀ x ∈ acc', GoodTopic x := by
  induction acc generalizing acc' with
  | nil => simp [mergeIntoFirst] at h
  | cons e es ih =>
    simp only [mergeIntoFirst] at h
    split at h
    · injection h with h
      subst h
      intro x hx
      rcases List.mem_cons.mp hx with rfl | hx2
      · exact merge_topics_good (hacc e (by simp)) ht
      · exact hacc x (by simp [hx2])
    · cases hrec : mergeIntoFirst es t with
      | none => rw [hrec] at h; simp at h
      | some acc2 =>
        rw [hrec] at h
        simp at h
        subst h
        intro x hx
        rcases List.mem_cons.mp hx with rfl | hx2
        · exact hacc x (by simp)
        · exact ih (fun y hy => hacc y (by simp [hy])) hrec x hx2

theorem dedupPass_good (ts : List ExtractedTopic) (hts : ∀ x ∈ ts, GoodTopic x) :
    ∀ x ∈ dedupPass ts, GoodTopic x := by
  rw [dedupPass]
  suffices h : ∀ acc : List ExtractedTopic, (∀ x ∈ acc, GoodTopic x) →
      ∀ x ∈ ts.foldl (fun acc t =>
        match mergeIntoFirst acc t with
        | some acc2 => acc2
        | none => acc ++ [t]) acc, GoodTopic x by
    exact h [] (by simp)
  induction ts with
  | nil => intro acc hacc; simpa using hacc
  | cons t rest ih =>
    intro acc hacc
    have htg : GoodTopic t := hts t (by simp)
    have hrest : ∀ x ∈ rest, GoodTopic x := fun x hx => hts x (by simp [hx])
    simp only [List.foldl_cons]
    cases hm : mergeIntoFirst acc t with
    | none =>
      refine ih hrest (acc ++ [t]) ?_
      intro x hx
      rcases List.mem_append.mp hx with h1 | h2
      · exact hacc x h1
      · simp only [List.mem_singleton] at h2; subst h2; exact htg
    | some acc2 =>
      exact ih hrest acc2 (mergeIntoFirst_good hacc htg hm)

/-- C10: every topic returned by `_postprocess_topics` satisfies the
sanitization invariant — its name, after whitespace collapsing, has at least
3 characters; its description is non-empty; and its keyword list has between
1 and 8 entries that are pairwise distinct case-insensitively — for every
input topic list and material count. -/
theorem postprocess_topics_invariant (topics : List ExtractedTopic) (material_count : Nat) :
    ∀ t ∈ _postprocess_topics topics material_count,
      3 ≤ (pyStrip (collapseWs t.name)).length ∧ t.description ≠ [] ∧
        1 ≤ t.keywords.length ∧ t.keywords.length ≤ 8 ∧
        (t.keywords.map pyLower).Nodup := by
  intro t ht
  have hsan : ∀ x ∈ topics.filterMap _sanitize_topic, GoodTopic x := by
    intro x hx
    obtain ⟨raw, -, hsome⟩ := List.mem_filterMap.mp hx
    exact sanitize_topic_good hsome
  have hded := dedupPass_good (topics.filterMap _sanitize_topic) hsan
  have hmem : t ∈ dedupPass (topics.filterMap _sanitize_topic) := by
    simp only [_postprocess_topics] at ht
    exact List.mem_of_mem_take ht
  obtain ⟨h3, hfix, hdesc, hk1, hk8, hnd⟩ := hded t hmem
  rw [hfix]
  exact ⟨h3, hdesc, hk1, hk8, hnd⟩

/-- Witness for the C10 invariant at a concrete input. -/
theorem postprocess_topics_invariant_witness :
    topicMemoryLeaks ∈ _postprocess_topics [topicMemoryLeaks] 1 ∧
      (3 ≤ (pyStrip (collapseWs topicMemoryLeaks.name)).length ∧
        topicMemoryLeaks.description ≠ [] ∧
        1 ≤ topicMemoryLeaks.keywords.length ∧ topicMemoryLeaks.keywords.length ≤ 8 ∧
        (topicMemoryLeaks.keywords.map pyLower).Nodup) :=
  ⟨by decide, postprocess_topics_invariant [topicMemoryLeaks] 1 topicMemoryLeaks (by decide)⟩

/-!
## Hybrid retrieval (`app/services/embeddings/search.py`)

The keyword and semantic SQL results are abstracted as the chunk ids (keyword
path) and id/similarity pairs (semantic path) returned by the database;
similarity scores (Python floats) are modelled as exact rationals.  The
fusion logic of `hybrid_search_chunks` (steps 3–4) is embedded below.
-/

/-- The `relevance_source` tag. -/
inductive RelevanceSource where
  | keyword_match
  | semantic_search
  | keyword_and_semantic
deriving DecidableEq

/-- One entry of the fusion map `chunks_by_id`. -/
structure FusedChunk where
  id : Nat
  relevance_score : ℚ
  relevance_source : RelevanceSource
deriving DecidableEq

/-- Python dict assignment `chunks_by_id[chunk_id] = v`: replace in place if
the key is present (insertion order preserved), else append. -/
def dictSetFused (m : List FusedChunk) (c : FusedChunk) : List FusedChunk :=
  if m.any (fun e => e.id == c.id) then m.map (fun e => if e.id == c.id then c else e)
  else m ++ [c]

/-- The keyword pass of the fusion: every keyword hit enters the map with
score `0.8` and source `keyword_match`. -/
def fuseKeyword (keywordChunks : List Nat) : List FusedChunk :=
  keywordChunks.foldl
    (fun m cid => dictSetFused m ⟨cid, 0.8, RelevanceSource.keyword_match⟩) []

/-- The semantic pass of the fusion: a chunk already present gets score
`max(existing_score, similarity) * 1.1` and source `keyword_and_semantic`;
a new chunk enters with its similarity and source `semantic_search`. -/
def fuseSemantic (m0 : List FusedChunk) (semanticChunks : List (Nat × ℚ)) :
    List FusedChunk :=
  semanticChunks.foldl
    (fun m sc =>
      if m.any (fun e => e.id == sc.1) then
        m.map (fun e =>
          if e.id == sc.1 then
            ⟨sc.1, max e.relevance_score sc.2 * 1.1, RelevanceSource.keyword_and_semantic⟩
          else e)
      else m ++ [⟨sc.1, sc.2, RelevanceSource.semantic_search⟩]) m0

/-- Stable insertion into a descending-by-score list (a later element goes
after earlier elements of equal score, as with Python's stable sort). -/
def insertScoreDesc (c : FusedChunk) : List FusedChunk → List FusedChunk
  | [] => [c]
  | d :: ds =>
    if c.relevance_score ≤ d.relevance_score then d :: insertScoreDesc c ds
    else c :: d :: ds

/-- Stable descending sort by `relevance_score`, modelling
`sorted(..., key=score, reverse=True)`. -/
def sortScoreDesc (l : List FusedChunk) : List FusedChunk :=
  l.foldl (fun acc c => insertScoreDesc c acc) []

/-- Steps 3–4 of `hybrid_search_chunks`: fuse keyword and semantic results,
rank by score descending, truncate to `limit`. -/
def hybrid_fuse (keywordChunks : List Nat) (semanticChunks : List (Nat × ℚ))
    (limit : Nat) : List FusedChunk :=
  (sortScoreDesc (fuseSemantic (fuseKeyword keywordChunks) semanticChunks)).take limit

/-- The per-chunk scoring contract of claim C3, relative to the full keyword
and semantic result sets. -/
def FusedOk (kw : List Nat) (sem : List (Nat × ℚ)) (c : FusedChunk) : Prop :=
  (c.id ∈ kw ∨ c.id ∈ sem.map Prod.fst) ∧
  (c.id ∈ kw → c.id ∉ sem.map Prod.fst →
    c.relevance_score = 0.8 ∧ c.relevance_source = RelevanceSource.keyword_match) ∧
  (∀ s, (c.id, s) ∈ sem → c.id ∉ kw →
    c.relevance_score = s ∧ c.relevance_source = RelevanceSource.semantic_search) ∧
  (∀ s, (c.id, s) ∈ sem → c.id ∈ kw →
    c.relevance_score = max 0.8 s * 1.1 ∧
      c.relevance_source = RelevanceSource.keyword_and_semantic)

theorem sem_unique {sem : List (Nat × ℚ)} (hsem : (sem.map Prod.fst).Nodup)
    {k : Nat} {s s' : ℚ} (h1 : (k, s) ∈ sem) (h2 : (k, s') ∈ sem) : s = s' := by
  induction sem with
  | nil => simp at h1
  | cons p rest ih =>
    rw [List.map_cons, List.nodup_cons] at hsem
    rcases List.mem_cons.mp h1 with e1 | m1 <;> rcases List.mem_cons.mp h2 with e2 | m2
    · rw [← e1] at e2; injection e2 with h3 h4; exact h4.symm
    · exfalso
      apply hsem.1
      rw [← e1]
      exact List.mem_map.mpr ⟨(k, s'), m2, rfl⟩
    · exfalso
      apply hsem.1
      rw [← e2]
      exact List.mem_map.mpr ⟨(k, s), m1, rfl⟩
    · exact ih hsem.2 m1 m2

theorem fuseKeyword_aux (kw : List Nat) : ∀ m0 : List FusedChunk, kw.Nodup →
    (∀ k ∈ kw, ∀ e ∈ m0, e.id ≠ k) →
    kw.foldl (fun m cid => dictSetFused m ⟨cid, 0.8, RelevanceSource.keyword_match⟩) m0 =
      m0 ++ kw.map (fun k => ⟨k, 0.8, RelevanceSource.keyword_match⟩) := by
  induction kw with
  | nil => intro m0 _ _; simp
  | cons k kw' ih =>
    intro m0 hnd hdisj
    rw [List.nodup_cons] at hnd
    have hany : m0.any (fun e => e.id == k) = false := by
      rw [List.any_eq_false]
      intro e he
      simpa using hdisj k (by simp) e he
    have hstep : dictSetFused m0 ⟨k, 0.8, RelevanceSource.keyword_match⟩ =
        m0 ++ [⟨k, 0.8, RelevanceSource.keyword_match⟩] := by
      simp only [dictSetFused, hany, Bool.false_eq_true, if_false]
    have hside : ∀ k' ∈ kw', ∀ e ∈ m0 ++ [(⟨k, 0.8, RelevanceSource.keyword_match⟩ : FusedChunk)],
        e.id ≠ k' := by
      intro k' hk' e he
      rcases List.mem_append.mp he with h1 | h2
      · exact hdisj k' (by simp [hk']) e h1
      · simp only [List.mem_singleton] at h2
        subst h2
        intro hcontra
        simp only at hcontra
        rw [← hcontra] at hk'
        exact hnd.1 hk'
    have ih' := ih (m0 ++ [(⟨k, 0.8, RelevanceSource.keyword_match⟩ : FusedChunk)]) hnd.2 hside
    rw [List.foldl_cons, hstep, ih']
    simp

/-- After the keyword pass, the map is exactly the keyword ids with base
score `0.8`. -/
theorem fuseKeyword_eq (kw : List Nat) (h : kw.Nodup) :
    fuseKeyword kw = kw.map (fun k => ⟨k, 0.8, RelevanceSource.keyword_match⟩) := by
  have := fuseKeyword_aux kw [] h (by simp)
  simpa [fuseKeyword] using this

theorem fuseSemantic_ok (kw : List Nat) (sem : List (Nat × ℚ))
    (hsem : (sem.map Prod.fst).Nodup) :
    ∀ (rest : List (Nat × ℚ)) (m : List FusedChunk),
    (m.map (fun c => c.id)).Nodup →
    (∀ k ∈ kw, k ∈ m.map (fun c => c.id)) →
    (∀ p ∈ rest, p ∈ sem) →
    (rest.map Prod.fst).Nodup →
    (∀ c ∈ m, c.id ∉ rest.map Prod.fst → FusedOk kw sem c) →
    (∀ c ∈ m, c.id ∈ rest.map Prod.fst →
      c.relevance_score = 0.8 ∧ c.relevance_source = RelevanceSource.keyword_match ∧
        c.id ∈ kw) →
    ∀ c ∈ rest.foldl
      (fun m sc =>
        if m.any (fun e => e.id == sc.1) then
          m.map (fun e =>
            if e.id == sc.1 then
              ⟨sc.1, max e.relevance_score sc.2 * 1.1, RelevanceSource.keyword_and_semantic⟩
            else e)
        else m ++ [⟨sc.1, sc.2, RelevanceSource.semantic_search⟩]) m,
      FusedOk kw sem c := by
  intro rest
  induction rest with
  | nil =>
    intro m h1 h2 h5 h6 h3 h4 c hc
    simp only [List.foldl_nil] at hc
    exact h3 c hc (by simp)
  | cons p rest' ih =>
    intro m h1 h2 h5 h6 h3 h4 c hc
    obtain ⟨k, s⟩ := p
    have hpsem : (k, s) ∈ sem := h5 (k, s) (by simp)
    have hksem : k ∈ sem.map Prod.fst := List.mem_map.mpr ⟨(k, s), hpsem, rfl⟩
    rw [List.map_cons, List.nodup_cons] at h6
    simp only [List.foldl_cons] at hc
    by_cases hmem : m.any (fun e => e.id == k) = true
    · rw [if_pos (by simpa using hmem)] at hc
      set f : FusedChunk → FusedChunk := fun e =>
        if e.id == k then
          ⟨k, max e.relevance_score s * 1.1, RelevanceSource.keyword_and_semantic⟩
        else e with hf
      have hidpres : ∀ e ∈ m, (f e).id = e.id := by
        intro e he
        by_cases h : e.id = k <;> simp [hf, h]
      have hids : (m.map f).map (fun c => c.id) = m.map (fun c => c.id) := by
        rw [List.map_map]
        exact List.map_congr_left (fun e he => hidpres e he)
      refine ih (m.map f) (by rw [hids]; exact h1) (by rw [hids]; exact h2)
        (fun q hq => h5 q (by simp [hq])) h6.2 ?_ ?_ c hc
      · intro c' hc' hnotin
        obtain ⟨e, he, hfe⟩ := List.mem_map.mp hc'
        by_cases hek : e.id = k
        · obtain ⟨hsc, hsrc, hkw⟩ := h4 e he (by rw [hek]; simp)
          have hc'eq : c' = ⟨k, max 0.8 s * 1.1, RelevanceSource.keyword_and_semantic⟩ := by
            rw [← hfe, hf]
            simp [hek, hsc]
          have hcid : c'.id = k := by rw [hc'eq]
          refine ⟨Or.inl (by rw [hcid]; exact hek ▸ hkw), ?_, ?_, ?_⟩
          · intro _ habs
            exact absurd (by rw [hcid]; exact hksem) habs
          · intro s' hs' habs
            exact absurd (by rw [hcid]; exact hek ▸ hkw) habs
          · intro s' hs' _
            have hss' : s = s' := sem_unique hsem hpsem (by rw [← hcid]; exact hs')
            rw [hc'eq, hss']
            exact ⟨rfl, rfl⟩
        · have hc'eq : c' = e := by rw [← hfe, hf]; simp [hek]
          subst hc'eq
          refine h3 c' he ?_
          rw [List.map_cons]
          intro habs
          rcases List.mem_cons.mp habs with habs1 | habs2
          · exact hek habs1
          · exact hnotin habs2
      · intro c' hc' hin
        obtain ⟨e, he, hfe⟩ := List.mem_map.mp hc'
        by_cases hek : e.id = k
        · exfalso
          have hcid : c'.id = k := by
            rw [← hfe, hf]
            simp [hek]
          rw [hcid] at hin
          exact h6.1 hin
        · have hc'eq : c' = e := by rw [← hfe, hf]; simp [hek]
          subst hc'eq
          exact h4 c' he (by rw [List.map_cons]; exact List.mem_cons_of_mem _ hin)
    · rw [if_neg hmem] at hc
      have hknotin : k ∉ m.map (fun c => c.id) := by
        intro habs
        obtain ⟨e, he, hid⟩ := List.mem_map.mp habs
        rw [List.any_eq_true] at hmem
        exact hmem ⟨e, he, by simp [hid]⟩
      have hknotkw : k ∉ kw := fun habs => hknotin (h2 k habs)
      refine ih (m ++ [⟨k, s, RelevanceSource.semantic_search⟩]) ?_ ?_
        (fun q hq => h5 q (by simp [hq])) h6.2 ?_ ?_ c hc
      · rw [List.map_append, List.nodup_append]
        refine ⟨h1, by simp, ?_⟩
        intro a ha hak
        simp only [List.map_cons, List.map_nil, List.mem_singleton] at hak
        subst hak
        exact hknotin ha
      · intro k' hk'
        rw [List.map_append]
        exact List.mem_append.mpr (Or.inl (h2 k' hk'))
      · intro c' hc' hnotin
        rcases List.mem_append.mp hc' with h1' | h2'
        · have hcnek : c'.id ≠ k := by
            intro habs
            exact hknotin (habs ▸ List.mem_map.mpr ⟨c', h1', rfl⟩)
          refine h3 c' h1' ?_
          rw [List.map_cons]
          intro habs
          rcases List.mem_cons.mp habs with habs1 | habs2
          · exact hcnek habs1
          · exact hnotin habs2
        · simp only [List.mem_singleton] at h2'
          subst h2'
          refine ⟨Or.inr hksem, ?_, ?_, ?_⟩
          · intro habs
            exact absurd habs hknotkw
          · intro s' hs' _
            have hss' : s = s' := sem_unique hsem hpsem hs'
            rw [hss']
            exact ⟨rfl, rfl⟩
          · intro s' hs' habs
            exact absurd habs hknotkw
      · intro c' hc' hin
        rcases List.mem_append.mp hc' with h1' | h2'
        · exact h4 c' h1' (by rw [List.map_cons]; exact List.mem_cons_of_mem _ hin)
        · exfalso
          simp only [List.mem_singleton] at h2'
          subst h2'
          exact h6.1 hin

theorem insertScoreDesc_perm (c : FusedChunk) (l : List FusedChunk) :
    (insertScoreDesc c l).Perm (c :: l) := by
  induction l with
  | nil => exact List.Perm.refl _
  | cons d ds ih =>
    simp only [insertScoreDesc]
    split
    · exact ((ih).cons d).trans (List.Perm.swap c d ds)
    · exact List.Perm.refl _

theorem sortScoreDesc_perm (l : List FusedChunk) : (sortScoreDesc l).Perm l := by
  rw [sortScoreDesc]
  suffices h : ∀ acc : List FusedChunk,
      (l.foldl (fun acc c => insertScoreDesc c acc) acc).Perm (acc ++ l) by
    simpa using h []
  induction l with
  | nil => intro acc; simp
  | cons c cs ih =>
    intro acc
    simp only [List.foldl_cons]
    refine (ih (insertScoreDesc c acc)).trans ?_
    have h1 : (insertScoreDesc c acc ++ cs).Perm ((c :: acc) ++ cs) :=
      (insertScoreDesc_perm c acc).append_right cs
    refine h1.trans ?_
    simp only [List.cons_append]
    exact (List.perm_middle).symm

theorem insertScoreDesc_sorted (c : FusedChunk) (l : List FusedChunk)
    (h : l.Pairwise (fun a b => b.relevance_score ≤ a.relevance_score)) :
    (insertScoreDesc c l).Pairwise (fun a b => b.relevance_score ≤ a.relevance_score) := by
  induction l with
  | nil => simp [insertScoreDesc]
  | cons d ds ih =>
    rw [List.pairwise_cons] at h
    simp only [insertScoreDesc]
    split
    · rename_i hle
      rw [List.pairwise_cons]
      refine ⟨?_, ih h.2⟩
      intro y hy
      have hmem : y ∈ c :: ds := (insertScoreDesc_perm c ds).mem_iff.mp hy
      rcases List.mem_cons.mp hmem with rfl | hyds
      · exact hle
      · exact h.1 y hyds
    · rename_i hgt
      push_neg at hgt
      rw [List.pairwise_cons]
      refine ⟨?_, by rw [List.pairwise_cons]; exact h⟩
      intro y hy
      rcases List.mem_cons.mp hy with rfl | hyds
      · exact le_of_lt hgt
      · exact le_trans (h.1 y hyds) (le_of_lt hgt)

theorem sortScoreDesc_sorted (l : List FusedChunk) :
    (sortScoreDesc l).Pairwise (fun a b => b.relevance_score ≤ a.relevance_score) := by
  rw [sortScoreDesc]
  suffices h : ∀ acc : List FusedChunk,
      acc.Pairwise (fun a b => b.relevance_score ≤ a.relevance_score) →
      (l.foldl (fun acc c => insertScoreDesc c acc) acc).Pairwise
        (fun a b => b.relevance_score ≤ a.relevance_score) by
    exact h [] (by simp)
  induction l with
  | nil => intro acc hacc; simpa using hacc
  | cons c cs ih =>
    intro acc hacc
    simp only [List.foldl_cons]
    exact ih (insertScoreDesc c acc) (insertScoreDesc_sorted c acc hacc)

/-- C3: hybrid fusion assigns, for every chunk in its output, score `0.8`
with source `keyword_match` when found only by keyword search; score equal to
the similarity with source `semantic_search` when found only by semantic
search; and score `max(0.8, similarity) × 1.1` with source
`keyword_and_semantic` when found by both; the result is sorted by score
descending and truncated to at most `limit` entries.  (The keyword and
semantic result sets are assumed free of duplicate chunk ids, as rows of a
single SQL query.) -/
theorem hybrid_fusion_spec (keywordChunks : List Nat) (semanticChunks : List (Nat × ℚ))
    (limit : Nat) (hkw : keywordChunks.Nodup)
    (hsem : (semanticChunks.map Prod.fst).Nodup) :
    (∀ c ∈ hybrid_fuse keywordChunks semanticChunks limit,
      (c.id ∈ keywordChunks ∨ c.id ∈ semanticChunks.map Prod.fst) ∧
      (c.id ∈ keywordChunks → c.id ∉ semanticChunks.map Prod.fst →
        c.relevance_score = 0.8 ∧ c.relevance_source = RelevanceSource.keyword_match) ∧
      (∀ s, (c.id, s) ∈ semanticChunks → c.id ∉ keywordChunks →
        c.relevance_score = s ∧ c.relevance_source = RelevanceSource.semantic_search) ∧
      (∀ s, (c.id, s) ∈ semanticChunks → c.id ∈ keywordChunks →
        c.relevance_score = max 0.8 s * 1.1 ∧
          c.relevance_source = RelevanceSource.keyword_and_semantic)) ∧
    (hybrid_fuse keywordChunks semanticChunks limit).Pairwise
      (fun a b => b.relevance_score ≤ a.relevance_score) ∧
    (hybrid_fuse keywordChunks semanticChunks limit).length ≤ limit := by
  have hfused : ∀ c ∈ fuseSemantic (fuseKeyword keywordChunks) semanticChunks,
      FusedOk keywordChunks semanticChunks c := by
    rw [fuseSemantic, fuseKeyword_eq keywordChunks hkw]
    have hids : ((keywordChunks.map
        (fun k => (⟨k, 0.8, RelevanceSource.keyword_match⟩ : FusedChunk))).map
          (fun c => c.id)) = keywordChunks := by
      rw [List.map_map]
      exact List.map_id _
    refine fuseSemantic_ok keywordChunks semanticChunks hsem semanticChunks _
      (by rw [hids]; exact hkw) (by rw [hids]; exact fun k hk => hk)
      (fun q hq => hq) hsem ?_ ?_
    · intro c hc hnotin
      obtain ⟨k, hk, hck⟩ := List.mem_map.mp hc
      subst hck
      refine ⟨Or.inl hk, fun _ _ => ⟨rfl, rfl⟩, ?_, ?_⟩
      · intro s hs habs
        exact absurd (List.mem_map.mpr ⟨(_, s), hs, rfl⟩) hnotin
      · intro s hs _
        exact absurd (List.mem_map.mpr ⟨(_, s), hs, rfl⟩) hnotin
    · intro c hc _
      obtain ⟨k, hk, hck⟩ := List.mem_map.mp hc
      subst hck
      exact ⟨rfl, rfl, hk⟩
  refine ⟨?_, ?_, ?_⟩
  · intro c hc
    have hc2 : c ∈ sortScoreDesc (fuseSemantic (fuseKeyword keywordChunks) semanticChunks) :=
      List.mem_of_mem_take hc
    have hc3 : c ∈ fuseSemantic (fuseKeyword keywordChunks) semanticChunks :=
      (sortScoreDesc_perm _).mem_iff.mp hc2
    exact hfused c hc3
  · exact (sortScoreDesc_sorted _).sublist (List.take_sublist _ _)
  · exact List.length_take_le _ _

/-- Witness for C3 at a concrete input: keyword hit on chunk 1 plus semantic
similarity `9/10` (so, by the theorem, the fused score is
`max(0.8, 0.9) × 1.1 = 0.99` with source `keyword_and_semantic`). -/
theorem hybrid_fusion_spec_witness :
    ([1] : List Nat).Nodup ∧ (([(1, (9 : ℚ)/10)].map Prod.fst).Nodup) ∧
    ((∀ c ∈ hybrid_fuse [1] [(1, (9 : ℚ)/10)] 5,
      (c.id ∈ [1] ∨ c.id ∈ [(1, (9 : ℚ)/10)].map Prod.fst) ∧
      (c.id ∈ [1] → c.id ∉ [(1, (9 : ℚ)/10)].map Prod.fst →
        c.relevance_score = 0.8 ∧ c.relevance_source = RelevanceSource.keyword_match) ∧
      (∀ s, (c.id, s) ∈ [(1, (9 : ℚ)/10)] → c.id ∉ [1] →
        c.relevance_score = s ∧ c.relevance_source = RelevanceSource.semantic_search) ∧
      (∀ s, (c.id, s) ∈ [(1, (9 : ℚ)/10)] → c.id ∈ [1] →
        c.relevance_score = max 0.8 s * 1.1 ∧
          c.relevance_source = RelevanceSource.keyword_and_semantic)) ∧
    (hybrid_fuse [1] [(1, (9 : ℚ)/10)] 5).Pairwise
      (fun a b => b.relevance_score ≤ a.relevance_score) ∧
    (hybrid_fuse [1] [(1, (9 : ℚ)/10)] 5).length ≤ 5) :=
  ⟨by decide, by simp,
    hybrid_fusion_spec [1] [(1, (9 : ℚ)/10)] 5 (by decide) (by simp)⟩

/-!
## Keyword search and LIKE-pattern sanitization (`keyword_search` in
`search.py`)
-/

/-- One keyword's sanitization: escape `\`, `%`, `_` (in that order, as the
source chains `str.replace`), then remove non-printable characters. -/
def sanitizeKeyword (kw : Str) : Str :=
  (pyReplaceChar '_' ['\\', '_']
    (pyReplaceChar '%' ['\\', '%']
      (pyReplaceChar '\\' ['\\', '\\'] kw))).filter (fun c => pyIsPrintable c)

/-- The sanitization loop of `keyword_search`: sanitize each keyword and drop
the ones that become empty. -/
def sanitizeKeywords (kws : List Str) : List Str :=
  (kws.map sanitizeKeyword).filter (fun k => !k.isEmpty)

/-- A token of a SQL LIKE pattern: a literal character, `%` (any string) or
`_` (any single character). -/
inductive LikeTok where
  | lit (c : Char)
  | anyStr
  | anyOne
deriving DecidableEq

/-- Tokenize a LIKE pattern with escape character `\` (Postgres default).
A trailing lone `\` is a Postgres error; it is modelled as a literal and is
unreachable for sanitized keywords. -/
def likeToks : Str → List LikeTok
  | [] => []
  | '\\' :: c :: rest => LikeTok.lit c :: likeToks rest
  | ['\\'] => [LikeTok.lit '\\']
  | '%' :: rest => LikeTok.anyStr :: likeToks rest
  | '_' :: rest => LikeTok.anyOne :: likeToks rest
  | c :: rest => LikeTok.lit c :: likeToks rest

/-- LIKE-token matching against a text, case-insensitive on literals
(`ILIKE`). -/
def likeMatchToks : List LikeTok → Str → Bool
  | [], [] => true
  | [], _ :: _ => false
  | LikeTok.lit _ :: _, [] => false
  | LikeTok.lit c :: ts, x :: xs => (Char.toLower c == Char.toLower x) && likeMatchToks ts xs
  | LikeTok.anyOne :: _, [] => false
  | LikeTok.anyOne :: ts, _ :: xs => likeMatchToks ts xs
  | LikeTok.anyStr :: ts, [] => likeMatchToks ts []
  | LikeTok.anyStr :: ts, x :: xs =>
    likeMatchToks ts (x :: xs) || likeMatchToks (LikeTok.anyStr :: ts) xs
termination_by toks s => (s.length, toks.length)

/-- `text ILIKE pattern` with escape `\`. -/
def pyILike (text pattern : Str) : Bool := likeMatchToks (likeToks pattern) text

/-- A joined row of `material_chunks` with its material's project and
validation status, as selected by the `keyword_search` SQL query. -/
structure ChunkRow where
  id : Nat
  chunk_text : Str
  chunk_index : Nat
  project_id : Str
  validation_status : Str
deriving DecidableEq

/-- Stable insertion into an ascending-by-`chunk_index` list
(`ORDER BY mc.chunk_index`). -/
def insertIndexAsc (r : ChunkRow) : List ChunkRow → List ChunkRow
  | [] => [r]
  | d :: ds =>
    if d.chunk_index ≤ r.chunk_index then d :: insertIndexAsc r ds else r :: d :: ds

/-- Sort rows by `chunk_index` ascending. -/
def sortIndexAsc (l : List ChunkRow) : List ChunkRow :=
  l.foldl (fun acc r => insertIndexAsc r acc) []

/-- `keyword_search(project_id, keywords, limit)` over an abstract table of
joined chunk rows: early-return `[]` on an empty keyword list or when no
keyword survives sanitization; otherwise select the rows of valid materials
of the project whose text matches `ILIKE '%' || kw || '%'` for some sanitized
keyword, ordered by chunk index, limited. -/
def keyword_search (db : List ChunkRow) (project_id : Str) (keywords : List Str)
    (limit : Nat) : List ChunkRow :=
  if keywords.isEmpty then []
  else
    let sanitized := sanitizeKeywords keywords
    if sanitized.isEmpty then []
    else
      let rows := db.filter (fun r =>
        r.project_id == project_id && r.validation_status == ("valid".toList) &&
          sanitized.any (fun kw => pyILike r.chunk_text ('%' :: (kw ++ ['%']))))
      (sortIndexAsc rows).take limit

/-- The per-character image of the sanitization (escape then
printable-filter). -/
def sanChar (c : Char) : Str :=
  if c = '\\' then ['\\', '\\']
  else if c = '%' then ['\\', '%']
  else if c = '_' then ['\\', '_']
  else if pyIsPrintable c then [c] else []

theorem pyReplaceChar_append (old : Char) (new : Str) (l r : Str) :
    pyReplaceChar old new (l ++ r) = pyReplaceChar old new l ++ pyReplaceChar old new r := by
  induction l with
  | nil => simp [pyReplaceChar]
  | cons a t ih => simp [pyReplaceChar, ih, List.append_assoc]

theorem filter_printable_cons_of (c : Char) (h : pyIsPrintable c = true) (l : Str) :
    (c :: l).filter (fun c => pyIsPrintable c) =
      c :: l.filter (fun c => pyIsPrintable c) := by
  simp [List.filter_cons, h]

theorem sanitizeKeyword_cons (c : Char) (rest : Str) :
    sanitizeKeyword (c :: rest) = sanChar c ++ sanitizeKeyword rest := by
  by_cases h1 : c = '\\'
  · subst h1
    simp [sanitizeKeyword, sanChar, pyReplaceChar, pyReplaceChar_append]
    rw [filter_printable_cons_of '\\' (by decide), filter_printable_cons_of '\\' (by decide)]
  · by_cases h2 : c = '%'
    · subst h2
      simp [sanitizeKeyword, sanChar, pyReplaceChar, pyReplaceChar_append]
      rw [filter_printable_cons_of '\\' (by decide), filter_printable_cons_of '%' (by decide)]
    · by_cases h3 : c = '_'
      · subst h3
        simp [sanitizeKeyword, sanChar, pyReplaceChar, pyReplaceChar_append]
        rw [filter_printable_cons_of '\\' (by decide), filter_printable_cons_of '_' (by decide)]
      · simp only [sanitizeKeyword, sanChar, pyReplaceChar, if_neg h1, if_neg h2, if_neg h3,
          beq_iff_eq, if_neg (by simpa using h1), List.singleton_append, List.cons_append,
          List.nil_append]
        rw [List.filter_cons]
        by_cases hp : pyIsPrintable c
        · simp [hp]
        · simp [hp]

theorem likeToks_sanChar (c : Char) (r : Str) :
    likeToks (sanChar c ++ r) =
      (if pyIsPrintable c then [LikeTok.lit c] else []) ++ likeToks r := by
  by_cases h1 : c = '\\'
  · subst h1
    simp [sanChar, likeToks, pyIsPrintable]
  · by_cases h2 : c = '%'
    · subst h2
      simp [sanChar, likeToks, pyIsPrintable]
    · by_cases h3 : c = '_'
      · subst h3
        simp [sanChar, likeToks, pyIsPrintable]
      · simp only [sanChar, if_neg h1, if_neg h2, if_neg h3]
        split
        · rw [List.singleton_append]
          rw [show likeToks (c :: r) = LikeTok.lit c :: likeToks r from by
            cases r with
            | nil =>
              rw [likeToks.eq_def]
              simp [h1, h2, h3]
            | cons a t =>
              rw [likeToks.eq_def]
              simp [h1, h2, h3]]
          simp
        · simp

/-- The sanitized keyword tokenizes to pure literals — no LIKE wildcard and
no dangling escape — whose content is exactly the printable characters of the
original keyword. -/
theorem likeToks_sanitizeKeyword (kw : Str) :
    likeToks (sanitizeKeyword kw) =
      (kw.filter (fun c => pyIsPrintable c)).map LikeTok.lit := by
  induction kw with
  | nil => rfl
  | cons c rest ih =>
    rw [sanitizeKeyword_cons, likeToks_sanChar, ih, List.filter_cons]
    by_cases h : pyIsPrintable c
    · rw [if_pos h, if_pos (by simpa using h)]
      simp
    · rw [if_neg h, if_neg (by simpa using h)]
      simp

/-- C8: keyword sanitization escapes every `%` and `_` (and `\`) so that the
sanitized keyword contributes only literal characters to the SQL LIKE
pattern (no wildcard survives), strips non-printable characters, drops
keywords that become empty, and `keyword_search` returns the empty result
list whenever no keyword survives sanitization. -/
theorem keyword_sanitization_spec :
    (∀ kw : Str, likeToks (sanitizeKeyword kw) =
      (kw.filter (fun c => pyIsPrintable c)).map LikeTok.lit) ∧
    (∀ kws : List Str, ∀ k ∈ sanitizeKeywords kws, k ≠ []) ∧
    (∀ (db : List ChunkRow) (project_id : Str) (kws : List Str) (limit : Nat),
      sanitizeKeywords kws = [] → keyword_search db project_id kws limit = []) := by
  refine ⟨likeToks_sanitizeKeyword, ?_, ?_⟩
  · intro kws k hk
    rw [sanitizeKeywords] at hk
    have := List.of_mem_filter hk
    simpa [List.isEmpty_eq_false] using this
  · intro db project_id kws limit hempty
    rw [keyword_search]
    split
    · rfl
    · rw [hempty]
      rfl

/-- Witness for C8: the keyword consisting of the single non-printable
character `\x01` sanitizes to nothing, so `keyword_search` returns `[]`. -/
theorem keyword_sanitization_spec_witness :
    sanitizeKeywords [['\x01']] = [] ∧ keyword_search [] [] [['\x01']] 7 = [] :=
  ⟨by decide, keyword_sanitization_spec.2.2 [] [] [['\x01']] 7 (by decide)⟩

/-!
## Job pipeline handlers (`app/api/routes/jobs.py`)

The `processing_jobs` and `materials` tables are modelled as association
lists keyed by id; `NOW()` is an explicit `now : Nat` parameter.  A handler
returns the new database state together with a `HandlerResult`: `ok body`
(FastAPI returns the dict as an HTTP 200 JSON body) or `httpError code
detail` (a raised `HTTPException`).  The parts of each handler that run only
after the material is found (download, chunking, embeddings, chaining) are
abstracted as an `onFound` continuation, since the claims below are about the
missing-material paths.
-/

/-- Find a row by key in an association-list table. -/
def lookupRow {α : Type} (table : List (Str × α)) (key : Str) : Option α :=
  (table.find? (fun e => e.1 == key)).map (fun e => e.2)

/-- `UPDATE ... WHERE id = key`: apply `f` to every row with the key. -/
def updateRow {α : Type} (table : List (Str × α)) (key : Str) (f : α → α) :
    List (Str × α) :=
  table.map (fun e => if e.1 == key then (e.1, f e.2) else e)

theorem lookupRow_updateRow {α : Type} (table : List (Str × α)) (key : Str) (f : α → α) :
    lookupRow (updateRow table key f) key = (lookupRow table key).map f := by
  induction table with
  | nil => rfl
  | cons e t ih =>
    by_cases h : e.1 = key
    · simp [lookupRow, updateRow, List.find?_cons, h]
    · have hbeq : (e.1 == key) = false := by simpa using h
      simp only [lookupRow, updateRow, List.map_cons, hbeq, Bool.false_eq_true, if_false,
        List.find?_cons, hbeq]
      exact ih

/-- A handler outcome: HTTP 200 with a JSON body of string fields, or a
raised `HTTPException`. -/
inductive HandlerResult where
  | ok (body : List (Str × Str))
  | httpError (code : Nat) (detail : Str)
deriving DecidableEq

/-- A `materials` row (the columns selected by the handlers). -/
structure MaterialRow where
  gcs_path : Str
  filename : Str
  category : Str
  project_id : Str
deriving DecidableEq

/-- A `processing_jobs` row (the columns written by the handlers). -/
structure JobRow where
  status : Str
  stage : Str
  started_at : Option Nat
  progress_percent : Nat
  attempt_count : Nat
  error_code : Option Str
  error_message : Option Str
  retryable : Bool
  result_data : Option Str
  completed_at : Option Nat
deriving DecidableEq

/-- The database state touched by the two handlers below. -/
structure PipelineDB where
  jobs : List (Str × JobRow)
  materials : List (Str × MaterialRow)
deriving DecidableEq

/-- The stage-entry `UPDATE processing_jobs SET status='processing', ...`. -/
def markProcessing (stage : Str) (now : Nat) (j : JobRow) : JobRow :=
  { j with
    status := "processing".toList
    stage := stage
    started_at := some now
    progress_percent := 10
    attempt_count := j.attempt_count + 1 }

/-- The failure `UPDATE processing_jobs SET status='failed', ...`. -/
def markFailed (code msg : Str) (retry : Bool) (now : Nat) (j : JobRow) : JobRow :=
  { j with
    status := "failed".toList
    error_code := some code
    retryable := retry
    error_message := some msg
    completed_at := some now }

/-- `chunk_material_job` up to the material lookup: mark the job processing;
if the material row is gone, mark the job failed / non-retryable /
`MATERIAL_NOT_FOUND` and return HTTP 200 with `status: "skipped"` (the
deliberate poison-pill defusal); otherwise continue with `onFound`. -/
def chunk_material_job (db : PipelineDB) (now : Nat) (jobId materialId : Str)
    (onFound : PipelineDB → MaterialRow → PipelineDB × HandlerResult) :
    PipelineDB × HandlerResult :=
  let jobs1 := updateRow db.jobs jobId (markProcessing ("chunking".toList) now)
  let db1 : PipelineDB := { jobs := jobs1, materials := db.materials }
  match lookupRow db1.materials materialId with
  | none =>
    let failRow := markFailed ("MATERIAL_NOT_FOUND".toList)
      ("Material not found (deleted)".toList) false now
    let db2 : PipelineDB := { jobs := updateRow jobs1 jobId failRow, materials := db.materials }
    (db2, HandlerResult.ok
      [("status".toList, "skipped".toList), ("jobId".toList, jobId),
        ("reason".toList, "Material not found".toList)])
  | some m => onFound db1 m

/-- `validate_material_job` up to the material lookup.  In the source the
missing-material branch is `raise HTTPException(404, "Material not found")`,
but that raise sits inside the handler's own blanket `except Exception`
(`fastapi.HTTPException` subclasses `Exception`): the handler catches it,
records `VALIDATION_FAILED` / non-retryable on the job row with message
`str(e) = "404: Material not found"`, and re-raises
`HTTPException(500, "Validation failed: " + str(e))` — so the client sees
HTTP 500, never the 404. -/
def validate_material_job (db : PipelineDB) (now : Nat) (jobId materialId : Str)
    (onFound : PipelineDB → MaterialRow → PipelineDB × HandlerResult) :
    PipelineDB × HandlerResult :=
  let jobs1 := updateRow db.jobs jobId (markProcessing ("validating".toList) now)
  let db1 : PipelineDB := { jobs := jobs1, materials := db.materials }
  match lookupRow db1.materials materialId with
  | none =>
    let msg : Str := "404: Material not found".toList
    let failRow := markFailed ("VALIDATION_FAILED".toList) msg false now
    let db2 : PipelineDB := { jobs := updateRow jobs1 jobId failRow, materials := db.materials }
    (db2, HandlerResult.httpError 500 ("Validation failed: ".toList ++ msg))
  | some m => onFound db1 m

/-- C1: a `chunk_material` job executed for a material that no longer exists
marks the job row `status='failed'`, `retryable=FALSE`,
`error_code='MATERIAL_NOT_FOUND'` (with `completed_at` set), and returns a
success acknowledgment — HTTP 200 with body `status: "skipped"` — rather
than an HTTP error, for every such request. -/
theorem chunk_material_poison_pill (db : PipelineDB) (now : Nat) (jobId materialId : Str)
    (onFound : PipelineDB → MaterialRow → PipelineDB × HandlerResult) (j : JobRow)
    (hmat : lookupRow db.materials materialId = none)
    (hjob : lookupRow db.jobs jobId = some j) :
    (chunk_material_job db now jobId materialId onFound).2 =
      HandlerResult.ok
        [("status".toList, "skipped".toList), ("jobId".toList, jobId),
          ("reason".toList, "Material not found".toList)] ∧
    ∃ j', lookupRow (chunk_material_job db now jobId materialId onFound).1.jobs jobId =
        some j' ∧
      j'.status = "failed".toList ∧ j'.retryable = false ∧
      j'.error_code = some ("MATERIAL_NOT_FOUND".toList) ∧ j'.completed_at = some now := by
  simp only [chunk_material_job, hmat]
  refine ⟨trivial, ?_⟩
  refine ⟨markFailed ("MATERIAL_NOT_FOUND".toList) ("Material not found (deleted)".toList)
    false now (markProcessing ("chunking".toList) now j), ?_, rfl, rfl, rfl, rfl⟩
  simp only [lookupRow_updateRow, hjob]
  rfl

/-- Witness for C1 at a concrete one-job, zero-material database. -/
theorem chunk_material_poison_pill_witness :
    (lookupRow (PipelineDB.mk
        [("job-1".toList, JobRow.mk ("pending".toList) [] none 0 0 none none true none none)]
        []).materials ("m-1".toList) = none) ∧
    (lookupRow (PipelineDB.mk
        [("job-1".toList, JobRow.mk ("pending".toList) [] none 0 0 none none true none none)]
        []).jobs ("job-1".toList) =
      some (JobRow.mk ("pending".toList) [] none 0 0 none none true none none)) ∧
    ((chunk_material_job (PipelineDB.mk
        [("job-1".toList, JobRow.mk ("pending".toList) [] none 0 0 none none true none none)]
        []) 5 ("job-1".toList) ("m-1".toList) (fun d _ => (d, HandlerResult.ok []))).2 =
      HandlerResult.ok
        [("status".toList, "skipped".toList), ("jobId".toList, "job-1".toList),
          ("reason".toList, "Material not found".toList)] ∧
    ∃ j', lookupRow (chunk_material_job (PipelineDB.mk
        [("job-1".toList, JobRow.mk ("pending".toList) [] none 0 0 none none true none none)]
        []) 5 ("job-1".toList) ("m-1".toList)
          (fun d _ => (d, HandlerResult.ok []))).1.jobs ("job-1".toList) = some j' ∧
      j'.status = "failed".toList ∧ j'.retryable = false ∧
      j'.error_code = some ("MATERIAL_NOT_FOUND".toList) ∧ j'.completed_at = some 5) :=
  ⟨rfl, rfl,
    chunk_material_poison_pill _ 5 ("job-1".toList) ("m-1".toList) _
      (JobRow.mk ("pending".toList) [] none 0 0 none none true none none) rfl rfl⟩

/-- C6: the claim says a `validate-material` request whose material is
missing gets HTTP 404; the code does raise `HTTPException(404)`, but its own
blanket `except Exception` swallows it, marks the job
`VALIDATION_FAILED`/non-retryable, and re-raises HTTP 500 with detail
`"Validation failed: 404: Material not found"` — evaluated here at a
concrete failing input.  The explicit 404 raise in the source shows the 404
was the intent; the blanket handler makes it unreachable, so the claim is
right and the code is wrong. -/
theorem validate_material_missing_gives_500 :
    (validate_material_job (PipelineDB.mk
        [("job-1".toList, JobRow.mk ("pending".toList) [] none 0 0 none none true none none)]
        []) 0 ("job-1".toList) ("m-1".toList) (fun d _ => (d, HandlerResult.ok []))).2 =
      HandlerResult.httpError 500 ("Validation failed: 404: Material not found".toList) ∧
    (validate_material_job (PipelineDB.mk
        [("job-1".toList, JobRow.mk ("pending".toList) [] none 0 0 none none true none none)]
        []) 0 ("job-1".toList) ("m-1".toList) (fun d _ => (d, HandlerResult.ok []))).2 ≠
      HandlerResult.httpError 404 ("Material not found".toList) ∧
    ∃ j', lookupRow (validate_material_job (PipelineDB.mk
        [("job-1".toList, JobRow.mk ("pending".toList) [] none 0 0 none none true none none)]
        []) 0 ("job-1".toList) ("m-1".toList)
          (fun d _ => (d, HandlerResult.ok []))).1.jobs ("job-1".toList) = some j' ∧
      j'.status = "failed".toList ∧ j'.error_code = some ("VALIDATION_FAILED".toList) ∧
      j'.retryable = false := by
  refine ⟨by decide, by decide, ?_⟩
  refine ⟨markFailed ("VALIDATION_FAILED".toList) ("404: Material not found".toList) false 0
    (markProcessing ("validating".toList) 0
      (JobRow.mk ("pending".toList) [] none 0 0 none none true none none)), by decide,
    rfl, rfl, rfl⟩

/-!
## Topic persistence reconciliation (`insert_topics_transaction` in
`extract_topics_job`, `jobs.py`)

The `topics` table is modelled as a list of rows; `gen_random_uuid()` is
modelled by a fresh-id counter whose start `fresh0` lies above every existing
id.  The per-topic `topic_chunk_mappings` writes (hybrid search, delete,
insert) touch a different table and never modify `topics`, so they are
omitted from this state.  `jobs.py` defines its own `_normalize_topic_name`
identical to the one in `topic_extractor.py`; the embedding above is
reused. -/

/-- A `topics` row (columns touched by the transaction). -/
structure TopicRow where
  id : Nat
  name : Str
  description : Str
  keywords : List Str
  order_index : Nat
  user_confirmed : Bool
deriving DecidableEq

/-- Python dict assignment for the `existing_by_name` map. -/
def assocSet (m : List (Str × Nat)) (k : Str) (v : Nat) : List (Str × Nat) :=
  if m.any (fun e => e.1 == k) then m.map (fun e => if e.1 == k then (k, v) else e)
  else m ++ [(k, v)]

/-- `existing_by_name`: normalized name → topic id, built from the existing
rows in creation order (later duplicates overwrite), skipping rows whose
normalized name is empty. -/
def buildExistingByName (rows : List TopicRow) : List (Str × Nat) :=
  rows.foldl (fun m r =>
    let n := _normalize_topic_name r.name
    if n.isEmpty then m else assocSet m n r.id) []

/-- `topic_keywords`: strip each keyword, drop falsy/blank ones, default to
the lowercased topic name. -/
def topicKeywordsOrName (t : ExtractedTopic) : List Str :=
  let ks := (t.keywords.map pyStrip).filter (fun k => !k.isEmpty)
  if ks.isEmpty then [pyLower t.name] else ks

/-- The per-topic loop of `insert_topics_transaction`: update the matching
existing row in place (id and `user_confirmed` untouched) or insert a new
unconfirmed row with a fresh id, accumulating `kept_topic_ids`. -/
def insertTopicsLoop : List ExtractedTopic → Nat → List TopicRow → List (Str × Nat) →
    List Nat → Nat → List TopicRow × List Nat × Nat
  | [], _, table, _, kept, fresh => (table, kept, fresh)
  | t :: rest, idx, table, byName, kept, fresh =>
    match lookupRow byName (_normalize_topic_name t.name) with
    | some tid =>
      insertTopicsLoop rest (idx + 1)
        (table.map (fun r =>
          if r.id == tid then
            { r with
              description := t.description
              keywords := topicKeywordsOrName t
              order_index := idx }
          else r))
        byName (kept ++ [tid]) fresh
    | none =>
      insertTopicsLoop rest (idx + 1)
        (table ++ [⟨fresh, t.name, t.description, topicKeywordsOrName t, idx, false⟩])
        (assocSet byName (_normalize_topic_name t.name) fresh)
        (kept ++ [fresh]) (fresh + 1)

/-- `insert_topics_transaction`: run the loop over the extracted topics, then
delete every unconfirmed topic whose id is not among `kept_topic_ids`
(guarded by `if kept_topic_ids:`).  Returns the final `topics` table and
`kept_topic_ids`. -/
def insert_topics_transaction (topics : List ExtractedTopic) (existing : List TopicRow)
    (fresh0 : Nat) : List TopicRow × List Nat :=
  let s := insertTopicsLoop topics 0 existing (buildExistingByName existing) [] fresh0
  if s.2.1.isEmpty then (s.1, s.2.1)
  else (s.1.filter (fun r => r.user_confirmed || s.2.1.contains r.id), s.2.1)

/-- The loop invariant: the counter never goes below `fresh0`; every existing
row keeps a row with its id and `user_confirmed` flag in the table; every
table row with a low id descends from an existing row with the same id and
flag; every table row with a high id was inserted by this run and is kept. -/
def LoopInv (existing : List TopicRow) (fresh0 : Nat) (table : List TopicRow)
    (kept : List Nat) (fresh : Nat) : Prop :=
  fresh0 ≤ fresh ∧
  (∀ r0 ∈ existing, ∃ r ∈ table, r.id = r0.id ∧ r.user_confirmed = r0.user_confirmed) ∧
  (∀ r ∈ table, r.id < fresh0 →
    ∃ r0 ∈ existing, r0.id = r.id ∧ r0.user_confirmed = r.user_confirmed) ∧
  (∀ r ∈ table, fresh0 ≤ r.id → r.id ∈ kept)

theorem insertTopicsLoop_kept_length (topics : List ExtractedTopic) :
    ∀ (idx : Nat) (table : List TopicRow) (byName : List (Str × Nat)) (kept : List Nat)
      (fresh : Nat),
    (insertTopicsLoop topics idx table byName kept fresh).2.1.length =
      kept.length + topics.length := by
  induction topics with
  | nil => intro idx table byName kept fresh; simp [insertTopicsLoop]
  | cons t rest ih =>
    intro idx table byName kept fresh
    simp only [insertTopicsLoop]
    cases lookupRow byName (_normalize_topic_name t.name) with
    | some tid =>
      rw [ih]
      simp
      omega
    | none =>
      rw [ih]
      simp
      omega

theorem insertTopicsLoop_kept_mono (topics : List ExtractedTopic) :
    ∀ (idx : Nat) (table : List TopicRow) (byName : List (Str × Nat)) (kept : List Nat)
      (fresh : Nat) (x : Nat), x ∈ kept →
      x ∈ (insertTopicsLoop topics idx table byName kept fresh).2.1 := by
  induction topics with
  | nil => intro idx table byName kept fresh x hx; simpa [insertTopicsLoop] using hx
  | cons t rest ih =>
    intro idx table byName kept fresh x hx
    simp only [insertTopicsLoop]
    cases lookupRow byName (_normalize_topic_name t.name) with
    | some tid => exact ih _ _ _ _ _ x (by simp [hx])
    | none => exact ih _ _ _ _ _ x (by simp [hx])

theorem insertTopicsLoop_inv (existing : List TopicRow) (fresh0 : Nat)
    (topics : List ExtractedTopic) :
    ∀ (idx : Nat) (table : List TopicRow) (byName : List (Str × Nat)) (kept : List Nat)
      (fresh : Nat),
    LoopInv existing fresh0 table kept fresh →
    LoopInv existing fresh0 (insertTopicsLoop topics idx table byName kept fresh).1
      (insertTopicsLoop topics idx table byName kept fresh).2.1
      (insertTopicsLoop topics idx table byName kept fresh).2.2 := by
  induction topics with
  | nil => intro idx table byName kept fresh hinv; simpa [insertTopicsLoop] using hinv
  | cons t rest ih =>
    intro idx table byName kept fresh hinv
    obtain ⟨hle, hkeep, hlow, hhigh⟩ := hinv
    simp only [insertTopicsLoop]
    cases lookupRow byName (_normalize_topic_name t.name) with
    | some tid =>
      set f : TopicRow → TopicRow := fun r =>
        if r.id == tid then
          { r with
            description := t.description
            keywords := topicKeywordsOrName t
            order_index := idx }
        else r with hf
      have hfid : ∀ r, (f r).id = r.id := by
        intro r
        by_cases h : r.id = tid <;> simp [hf, h]
      have hfconf : ∀ r, (f r).user_confirmed = r.user_confirmed := by
        intro r
        by_cases h : r.id = tid <;> simp [hf, h]
      refine ih _ _ _ _ _ ⟨hle, ?_, ?_, ?_⟩
      · intro r0 hr0
        obtain ⟨r, hr, hid, hconf⟩ := hkeep r0 hr0
        exact ⟨f r, List.mem_map.mpr ⟨r, hr, rfl⟩, by rw [hfid]; exact hid,
          by rw [hfconf]; exact hconf⟩
      · intro r hr hrlow
        obtain ⟨r1, hr1, hfr1⟩ := List.mem_map.mp hr
        obtain ⟨r0, hr0, hid, hconf⟩ := hlow r1 hr1 (by rw [← hfr1, hfid] at hrlow; exact hrlow)
        exact ⟨r0, hr0, by rw [← hfr1, hfid]; exact hid, by rw [← hfr1, hfconf]; exact hconf⟩
      · intro r hr hrhigh
        obtain ⟨r1, hr1, hfr1⟩ := List.mem_map.mp hr
        have := hhigh r1 hr1 (by rw [← hfr1, hfid] at hrhigh; exact hrhigh)
        rw [← hfr1, hfid]
        simp [this]
    | none =>
      refine ih _ _ _ _ _ ⟨by omega, ?_, ?_, ?_⟩
      · intro r0 hr0
        obtain ⟨r, hr, hid, hconf⟩ := hkeep r0 hr0
        exact ⟨r, by simp [hr], hid, hconf⟩
      · intro r hr hrlow
        rcases List.mem_append.mp hr with h1 | h2
        · exact hlow r h1 hrlow
        · simp only [List.mem_singleton] at h2
          subst h2
          simp only at hrlow
          omega
      · intro r hr hrhigh
        rcases List.mem_append.mp hr with h1 | h2
        · have := hhigh r h1 hrhigh
          simp [this]
        · simp only [List.mem_singleton] at h2
          subst h2
          simp

theorem nodup_ids_inj {l : List TopicRow} (h : (l.map (fun r => r.id)).Nodup)
    {a b : TopicRow} (ha : a ∈ l) (hb : b ∈ l) (hab : a.id = b.id) : a = b := by
  induction l with
  | nil => simp at ha
  | cons r t ih =>
    rw [List.map_cons, List.nodup_cons] at h
    rcases List.mem_cons.mp ha with rfl | ha2 <;> rcases List.mem_cons.mp hb with rfl | hb2
    · rfl
    · exfalso
      apply h.1
      rw [hab]
      exact List.mem_map.mpr ⟨b, hb2, rfl⟩
    · exfalso
      apply h.1
      rw [← hab]
      exact List.mem_map.mpr ⟨a, ha2, rfl⟩
    · exact ih h.2 ha2 hb2

/-- C5: after the reconciliation of an extraction run (with at least one
topic, as guaranteed by the route's earlier `404` on an empty extraction),
every existing topic with `user_confirmed = FALSE` whose id is not among the
kept ids is deleted, and every topic with `user_confirmed = TRUE` is
retained whether or not the newest extraction matched it.  Existing ids are
assumed pairwise distinct and below the fresh-id counter, as database keys
are. -/
theorem stale_topic_pruning (topics : List ExtractedTopic) (existing : List TopicRow)
    (fresh0 : Nat) (hne : topics ≠ [])
    (hids : (existing.map (fun r => r.id)).Nodup)
    (hfresh : ∀ r ∈ existing, r.id < fresh0) :
    (∀ r ∈ existing, r.user_confirmed = true →
      ∃ r' ∈ (insert_topics_transaction topics existing fresh0).1,
        r'.id = r.id ∧ r'.user_confirmed = true) ∧
    (∀ r ∈ existing, r.user_confirmed = false →
      r.id ∉ (insert_topics_transaction topics existing fresh0).2 →
      ∀ r' ∈ (insert_topics_transaction topics existing fresh0).1, r'.id ≠ r.id) := by
  have hinv0 : LoopInv existing fresh0 existing [] fresh0 := by
    refine ⟨le_rfl, ?_, ?_, ?_⟩
    · intro r0 hr0
      exact ⟨r0, hr0, rfl, rfl⟩
    · intro r hr _
      exact ⟨r, hr, rfl, rfl⟩
    · intro r hr hrhigh
      exact absurd (hfresh r hr) (by omega)
  have hinv := insertTopicsLoop_inv existing fresh0 topics 0 existing
    (buildExistingByName existing) [] fresh0 hinv0
  have hkeptlen := insertTopicsLoop_kept_length topics 0 existing
    (buildExistingByName existing) [] fresh0
  have hkeptne : (insertTopicsLoop topics 0 existing (buildExistingByName existing) []
      fresh0).2.1 ≠ [] := by
    intro habs
    rw [habs] at hkeptlen
    simp at hkeptlen
    cases htop : topics with
    | nil => exact hne htop
    | cons a l => rw [htop] at hkeptlen; simp at hkeptlen
  obtain ⟨hle, hkeep, hlow, hhigh⟩ := hinv
  have hnotempty : (insertTopicsLoop topics 0 existing (buildExistingByName existing) []
      fresh0).2.1.isEmpty = false := by
    simpa [List.isEmpty_eq_false] using hkeptne
  constructor
  · intro r hr hconf
    obtain ⟨r', hr', hid, hconf'⟩ := hkeep r hr
    refine ⟨r', ?_, hid, by rw [hconf']; exact hconf⟩
    simp only [insert_topics_transaction, hnotempty, Bool.false_eq_true, if_false]
    rw [List.mem_filter]
    refine ⟨hr', ?_⟩
    rw [hconf', hconf]
    simp
  · intro r hr hconf hnotkept r' hr' habs
    simp only [insert_topics_transaction, hnotempty, Bool.false_eq_true, if_false] at hr' hnotkept
    rw [List.mem_filter] at hr'
    obtain ⟨hr'mem, hr'pred⟩ := hr'
    have hrlow : r'.id < fresh0 := by rw [habs]; exact hfresh r hr
    obtain ⟨r0, hr0, hid0, hconf0⟩ := hlow r' hr'mem hrlow
    have hr0r : r0 = r := nodup_ids_inj hids hr0 hr (by rw [hid0, habs])
    have hconfr' : r'.user_confirmed = false := by rw [← hconf0, hr0r]; exact hconf
    rw [hconfr'] at hr'pred
    simp only [Bool.false_or] at hr'pred
    have : r'.id ∈ (insertTopicsLoop topics 0 existing (buildExistingByName existing) []
        fresh0).2.1 := by
      simpa using hr'pred
    rw [habs] at this
    exact hnotkept this

/-- A concrete extracted topic for the C5 witness. -/
def demoExtractedTopic : ExtractedTopic := ⟨"Alpha".toList, "d".toList, ["k".toList]⟩

/-- A concrete stale (unconfirmed) topic row for the C5 witness. -/
def demoStaleTopic : TopicRow := ⟨1, "Beta".toList, "e".toList, [], 0, false⟩

/-- A concrete confirmed topic row for the C5 witness. -/
def demoConfirmedTopic : TopicRow := ⟨2, "Gamma".toList, "g".toList, [], 1, true⟩

/-- Witness for C5 at a concrete run: one extracted topic, one stale
unconfirmed row (deleted) and one confirmed row (retained). -/
theorem stale_topic_pruning_witness :
    (([demoExtractedTopic] : List ExtractedTopic) ≠ []) ∧
    (([demoStaleTopic, demoConfirmedTopic].map (fun r => r.id)).Nodup) ∧
    (∀ r ∈ [demoStaleTopic, demoConfirmedTopic], r.id < 10) ∧
    ((∀ r ∈ [demoStaleTopic, demoConfirmedTopic], r.user_confirmed = true →
      ∃ r' ∈ (insert_topics_transaction [demoExtractedTopic]
          [demoStaleTopic, demoConfirmedTopic] 10).1,
        r'.id = r.id ∧ r'.user_confirmed = true) ∧
    (∀ r ∈ [demoStaleTopic, demoConfirmedTopic], r.user_confirmed = false →
      r.id ∉ (insert_topics_transaction [demoExtractedTopic]
          [demoStaleTopic, demoConfirmedTopic] 10).2 →
      ∀ r' ∈ (insert_topics_transaction [demoExtractedTopic]
          [demoStaleTopic, demoConfirmedTopic] 10).1, r'.id ≠ r.id)) :=
  ⟨by decide, by decide, by decide,
    stale_topic_pruning [demoExtractedTopic] [demoStaleTopic, demoConfirmedTopic] 10
      (by decide) (by decide) (by decide)⟩

end StudyBuddy
